import Mathlib

/-!
Verification development for the bookmark dedupe / flatten-merge tools
(`dedupe_chromium_bookmarks.py` and `dedupe_merge_netscape_bookmarks.py`).

The Python sources are shallowly embedded here.  Strings are modelled as
`List Char`; machine-level details of CPython's `urllib.parse` (version 3.11
semantics: the WHATWG leading-C0/space lstrip, removal of tab/CR/LF, scheme
and netloc splitting, the "Invalid IPv6 URL" ValueError on unbalanced
brackets) are reproduced at the character level.  Two deliberate model
simplifications, each noted at the definition it concerns: Unicode
lowercasing is modelled on the ASCII and Latin-1 ranges (all inputs of
interest are within them, and the mapping is idempotent exactly like
`str.lower`), and the auxiliary ValueErrors of `_check_bracketed_host` /
`_checknetloc` (which only widen the set of inputs taking the repo's
`except` fallback) are not modelled beyond the bracket-balance check.
-/

namespace BookmarkTools

/-! ## Character helpers -/

def isAsciiUpperCh (c : Char) : Bool := 'A' ≤ c && c ≤ 'Z'

def isAsciiLowerCh (c : Char) : Bool := 'a' ≤ c && c ≤ 'z'

def isAsciiAlphaCh (c : Char) : Bool := isAsciiUpperCh c || isAsciiLowerCh c

def isAsciiDigitCh (c : Char) : Bool := '0' ≤ c && c ≤ '9'

def isAsciiAlnumCh (c : Char) : Bool := isAsciiAlphaCh c || isAsciiDigitCh c

/-- Model of Python `str.lower` restricted to the ASCII and Latin-1 ranges
(uppercase A-Z and À-Þ except ×, each mapped 32 code points up); other code
points are returned unchanged. -/
def lowerPy (c : Char) : Char :=
  if isAsciiUpperCh c then Char.ofNat (c.toNat + 32)
  else if 0xC0 ≤ c.toNat && c.toNat ≤ 0xDE && c.toNat ≠ 0xD7 then Char.ofNat (c.toNat + 32)
  else c

def lowerStr (l : List Char) : List Char := l.map lowerPy

/-! ## Generic list splitting helpers (Python `str.find` + slicing, `str.split`) -/

/-- Split at the first occurrence of `sep`, like Python `s.split(sep, 1)` when
`sep` occurs; `none` when it does not. -/
def splitFirst (sep : Char) : List Char → Option (List Char × List Char)
  | [] => none
  | c :: cs =>
    if c = sep then some ([], cs)
    else (splitFirst sep cs).map (fun p => (c :: p.1, p.2))

/-- Python `s.split(sep)` (all pieces). -/
def splitAllAux (sep : Char) : List Char → List Char → List (List Char)
  | [], acc => [acc.reverse]
  | c :: cs, acc =>
    if c = sep then acc.reverse :: splitAllAux sep cs []
    else splitAllAux sep cs (c :: acc)

def splitAll (sep : Char) (l : List Char) : List (List Char) := splitAllAux sep l []

/-! ## UTF-8 encoding / decoding (CPython `str.encode` / `bytes.decode` with
`errors='replace'`; the replacement behaviour on malformed input is modelled
byte-for-byte on the ranges the sources can produce). -/

def utf8EncodeNat (c : Nat) : List Nat :=
  if c < 0x80 then [c]
  else if c < 0x800 then [0xC0 + c / 64, 0x80 + c % 64]
  else if c < 0x10000 then [0xE0 + c / 4096, 0x80 + c / 64 % 64, 0x80 + c % 64]
  else [0xF0 + c / 262144, 0x80 + c / 4096 % 64, 0x80 + c / 64 % 64, 0x80 + c % 64]

def replChar : Char := Char.ofNat 0xFFFD

def isContB (b : Nat) : Bool := 0x80 ≤ b && b < 0xC0

/-- Valid second byte for a three-byte lead (excludes overlong forms and
surrogates, as CPython's strict UTF-8 decoder does). -/
def isCont3 (b b2 : Nat) : Bool :=
  if b = 0xE0 then 0xA0 ≤ b2 && b2 < 0xC0
  else if b = 0xED then 0x80 ≤ b2 && b2 < 0xA0
  else isContB b2

/-- Valid second byte for a four-byte lead. -/
def isCont4 (b b2 : Nat) : Bool :=
  if b = 0xF0 then 0x90 ≤ b2 && b2 < 0xC0
  else if b = 0xF4 then 0x80 ≤ b2 && b2 < 0x90
  else isContB b2

def utf8DecodeReplace : List Nat → List Char
  | [] => []
  | b :: rest =>
    if b < 0x80 then Char.ofNat b :: utf8DecodeReplace rest
    else if b < 0xC2 then replChar :: utf8DecodeReplace rest
    else if b < 0xE0 then
      match rest with
      | [] => [replChar]
      | b2 :: r2 =>
        if isContB b2 then Char.ofNat ((b - 0xC0) * 64 + (b2 - 0x80)) :: utf8DecodeReplace r2
        else replChar :: utf8DecodeReplace (b2 :: r2)
    else if b < 0xF0 then
      match rest with
      | [] => [replChar]
      | b2 :: r2 =>
        if isCont3 b b2 then
          match r2 with
          | [] => [replChar]
          | b3 :: r3 =>
            if isContB b3 then
              Char.ofNat ((b - 0xE0) * 4096 + (b2 - 0x80) * 64 + (b3 - 0x80)) ::
                utf8DecodeReplace r3
            else replChar :: utf8DecodeReplace (b3 :: r3)
        else replChar :: utf8DecodeReplace (b2 :: r2)
    else if b < 0xF5 then
      match rest with
      | [] => [replChar]
      | b2 :: r2 =>
        if isCont4 b b2 then
          match r2 with
          | [] => [replChar]
          | b3 :: r3 =>
            if isContB b3 then
              match r3 with
              | [] => [replChar]
              | b4 :: r4 =>
                if isContB b4 then
                  Char.ofNat
                      ((b - 0xF0) * 262144 + (b2 - 0x80) * 4096 + (b3 - 0x80) * 64 +
                        (b4 - 0x80)) ::
                    utf8DecodeReplace r4
                else replChar :: utf8DecodeReplace (b4 :: r4)
            else replChar :: utf8DecodeReplace (b3 :: r3)
        else replChar :: utf8DecodeReplace (b2 :: r2)
    else replChar :: utf8DecodeReplace rest

/-! ## Percent encoding and decoding (`urllib.parse.quote_plus`, `unquote`) -/

def pctHexDigit (n : Nat) : Char :=
  if n < 10 then Char.ofNat (48 + n) else Char.ofNat (55 + n)

def pctEncByte (b : Nat) : List Char := ['%', pctHexDigit (b / 16), pctHexDigit (b % 16)]

/-- Characters `quote` never escapes (`_ALWAYS_SAFE`); `urlencode` passes
`safe=''` so nothing is added to this set. -/
def alwaysSafe (c : Char) : Bool := isAsciiAlnumCh c || c = '_' || c = '.' || c = '-' || c = '~'

def quotePlusChar (c : Char) : List Char :=
  if alwaysSafe c then [c]
  else if c = ' ' then ['+']
  else (utf8EncodeNat c.toNat).flatMap pctEncByte

/-- Model of `quote_plus(s, safe='')`: UTF-8 encode, percent-escape every
byte outside the always-safe set, with space rendered as `+`. -/
def quotePlus (l : List Char) : List Char := l.flatMap quotePlusChar

def hexVal? (c : Char) : Option Nat :=
  if '0' ≤ c && c ≤ '9' then some (c.toNat - 48)
  else if 'A' ≤ c && c ≤ 'F' then some (c.toNat - 55)
  else if 'a' ≤ c && c ≤ 'f' then some (c.toNat - 87)
  else none

/-- Percent-decode an ASCII run to bytes, as `unquote_to_bytes` does: a `%`
followed by two hex digits becomes one byte, an invalid escape is kept
literally, every other character contributes its own code. -/
def pctBytes : List Char → List Nat
  | [] => []
  | '%' :: a :: b :: r2 =>
    match hexVal? a, hexVal? b with
    | some x, some y => (x * 16 + y) :: pctBytes r2
    | _, _ => 0x25 :: pctBytes (a :: b :: r2)
  | '%' :: a :: [] => [0x25, a.toNat]
  | '%' :: [] => [0x25]
  | c :: rest => c.toNat :: pctBytes rest

/-- Model of `urllib.parse.unquote(s, errors='replace')`: maximal ASCII runs
are percent-decoded to bytes and UTF-8 decoded; non-ASCII characters pass
through verbatim. -/
def unquoteGo : List Char → List Char → List Char
  | acc, [] => utf8DecodeReplace (pctBytes acc.reverse)
  | acc, c :: cs =>
    if c.toNat < 0x80 then unquoteGo (c :: acc) cs
    else utf8DecodeReplace (pctBytes acc.reverse) ++ c :: unquoteGo [] cs

def unquoteM (l : List Char) : List Char := unquoteGo [] l

def plusToSpace (l : List Char) : List Char := l.map (fun c => if c = '+' then ' ' else c)

/-! ## Query-string parsing and encoding (`parse_qsl`, `urlencode`) -/

/-- One `name=value` piece of `parse_qsl(qs, keep_blank_values=True)`:
empty pieces are skipped, a piece with no `=` keeps a blank value, and both
sides get `+`-to-space then `unquote`. -/
def parseQslPair (nv : List Char) : Option (List Char × List Char) :=
  if nv = [] then none
  else
    match splitFirst '=' nv with
    | some (n, v) => some (unquoteM (plusToSpace n), unquoteM (plusToSpace v))
    | none => some (unquoteM (plusToSpace nv), [])

def parseQsl (qs : List Char) : List (List Char × List Char) :=
  if qs = [] then [] else (splitAll '&' qs).filterMap parseQslPair

def urlencodePair (p : List Char × List Char) : List Char :=
  quotePlus p.1 ++ '=' :: quotePlus p.2

/-- Model of `urlencode(pairs, doseq=True)` on string pairs. -/
def urlencodeM (l : List (List Char × List Char)) : List Char :=
  List.intercalate ['&'] (l.map urlencodePair)

def COMMON_TRACKING_PARAMS : List (List Char) :=
  ["utm_source".data, "utm_medium".data, "utm_campaign".data, "utm_term".data,
   "utm_content".data, "utm_id".data, "gclid".data, "fbclid".data, "mc_cid".data,
   "mc_eid".data, "igshid".data, "ref".data]

def filterTracking (l : List (List Char × List Char)) : List (List Char × List Char) :=
  l.filter (fun p => decide (p.1 ∉ COMMON_TRACKING_PARAMS))

/-! ## urlsplit / urlunsplit (CPython 3.11 `urllib.parse`) -/

structure USplit where
  scheme : List Char
  netloc : List Char
  path : List Char
  query : List Char
  fragment : List Char
deriving DecidableEq, Repr

/-- WHATWG leading strip plus removal of tab/CR/LF, exactly the two
sanitisation steps at the top of `urlsplit`. -/
def cleanUrl (u : List Char) : List Char :=
  (u.dropWhile (fun c => c.toNat ≤ 0x20)).filter
    (fun c => !(c = '\t' || c = '\r' || c = '\n'))

def schemeChar (c : Char) : Bool := isAsciiAlnumCh c || c = '+' || c = '-' || c = '.'

/-- Scheme extraction of `urlsplit`: the text before the first `:` is taken
as the (lower-cased) scheme when it is nonempty, starts with an ASCII letter
and uses only scheme characters. -/
def splitScheme (u : List Char) : List Char × List Char :=
  match splitFirst ':' u with
  | none => ([], u)
  | some (pre, post) =>
    match pre with
    | [] => ([], u)
    | c0 :: _ =>
      if isAsciiAlphaCh c0 && pre.all schemeChar then (lowerStr pre, post) else ([], u)

def notNetlocDelim (c : Char) : Bool := !(c = '/' || c = '?' || c = '#')

/-- Netloc extraction (`_splitnetloc` plus the unbalanced-bracket
"Invalid IPv6 URL" ValueError). -/
def splitNetlocE (u : List Char) : Except Unit (List Char × List Char) :=
  if u.take 2 = ['/', '/'] then
    let n := (u.drop 2).takeWhile notNetlocDelim
    let rest := (u.drop 2).dropWhile notNetlocDelim
    if (n.contains '[' && !n.contains ']') || (n.contains ']' && !n.contains '[') then
      Except.error ()
    else Except.ok (n, rest)
  else Except.ok ([], u)

def splitHashPair (u : List Char) : List Char × List Char :=
  match splitFirst '#' u with
  | none => (u, [])
  | some (a, b) => (a, b)

def splitQueryPair (u : List Char) : List Char × List Char :=
  match splitFirst '?' u with
  | none => (u, [])
  | some (a, b) => (a, b)

def urlsplitM (u0 : List Char) : Except Unit USplit :=
  let u1 := cleanUrl u0
  let sp := splitScheme u1
  match splitNetlocE sp.2 with
  | Except.error e => Except.error e
  | Except.ok nr =>
    let fr := splitHashPair nr.2
    let qr := splitQueryPair fr.1
    Except.ok ⟨sp.1, nr.1, qr.1, qr.2, fr.2⟩

/-- Schemes for which `urlunsplit` re-adds the `//` (CPython `uses_netloc`,
nonempty entries; the empty scheme never triggers the branch because of the
truthiness test). -/
def usesNetloc : List (List Char) :=
  ["file".data, "ftp".data, "git".data, "git+ssh".data, "gopher".data, "http".data,
   "https".data, "imap".data, "mms".data, "nfs".data, "nntp".data, "prospero".data,
   "rsync".data, "rtsp".data, "rtsps".data, "rtspu".data, "sftp".data, "shttp".data,
   "snews".data, "svn".data, "svn+ssh".data, "telnet".data, "wais".data, "ws".data,
   "wss".data]

def urlunsplitM (s n p q f : List Char) : List Char :=
  let url :=
    if n ≠ [] ∨ (s ≠ [] ∧ s ∈ usesNetloc ∧ p.take 2 ≠ ['/', '/']) then
      ('/' :: '/' :: n) ++
        (match p with
         | [] => []
         | c :: _ => if c ≠ '/' then '/' :: p else p)
    else p
  let url2 := if s ≠ [] then s ++ ':' :: url else url
  let url3 := if q ≠ [] then url2 ++ '?' :: q else url2
  if f ≠ [] then url3 ++ '#' :: f else url3

/-! ## normalize_url (identical in both source files) -/

def endsWithSlash (p : List Char) : Bool :=
  match p.getLast? with
  | some c => c = '/'
  | none => false

def rstripSlashes (p : List Char) : List Char :=
  (p.reverse.dropWhile (fun c => c = '/')).reverse

/-- Path step of `normalize_url`: `if path.endswith("/") and path != "/":
path = path.rstrip("/")`.  Note `rstrip` removes every trailing slash. -/
def canonPath (p : List Char) : List Char :=
  if endsWithSlash p && p ≠ ['/'] then rstripSlashes p else p

def normalizeList (u : List Char) : List Char :=
  match urlsplitM u with
  | Except.error _ => u
  | Except.ok s =>
    let r :=
      urlunsplitM (lowerStr s.scheme) (lowerStr s.netloc) (canonPath s.path)
        (urlencodeM (filterTracking (parseQsl s.query))) []
    if r = [] then u else r

def normalize_url (u : String) : String := String.mk (normalizeList u.data)

/-! ## Invariants of normalised URL components (for the idempotence analysis) -/

/-- No tab, CR or LF (the characters `urlsplit` deletes outright). -/
def ctlFree (l : List Char) : Bool := l.all (fun c => !(c = '\t' || c = '\r' || c = '\n'))

/-- `splitScheme` run on `p` (or any extension of `p` past its first `:`)
finds no scheme. -/
def schemeRejected (p : List Char) : Bool :=
  match splitFirst ':' p with
  | none => true
  | some (pre, _) =>
    match pre with
    | [] => true
    | c :: _ => !(isAsciiAlphaCh c && pre.all schemeChar)

/-- The invariants that hold of the four components `normalize_url` rebuilds
from (`fragment` is always empty); they are established by one round of
normalisation and make a second round reproduce the same string. -/
structure Canon (s n p q : List Char) : Prop where
  scheme_ok : s = [] ∨ ∃ c cs, s = c :: cs ∧ (isAsciiAlphaCh c && (c :: cs).all schemeChar) = true
  scheme_lower : lowerStr s = s
  netloc_nd : n.all notNetlocDelim = true
  netloc_lower : lowerStr n = n
  netloc_ctl : ctlFree n = true
  netloc_bra : ((n.contains '[' && !n.contains ']') || (n.contains ']' && !n.contains '[')) = false
  path_nf : p.all (fun c => !(c = '?' || c = '#')) = true
  path_ctl : ctlFree p = true
  path_canon : canonPath p = p
  path_scheme : s = [] → n = [] → schemeRejected p = true
  path_head : s = [] → n = [] → ∀ c, p.head? = some c → 0x20 < c.toNat
  q_mem : ∀ ch ∈ q, (0x20 < ch.toNat ∧ ch.toNat < 0x80) ∧ ch.toNat ≠ 35 ∧ ch.toNat ≠ 58
  q_fix : urlencodeM (filterTracking (parseQsl q)) = q

/-! ## Bookmark tree model

`Bookmark` and `Folder` dataclasses; a folder's `children` holds bookmarks
and folders in document order.  Attribute dictionaries are modelled as
association lists (only emptiness and equality of them matter to the
engines). -/

structure Bm where
  href : String
  title : String
  attrs : List (String × String)
deriving DecidableEq, Repr

inductive Node where
  | bm (b : Bm)
  | folder (name : String) (attrs : List (String × String)) (children : List Node)
deriving Repr

structure Stats where
  urls_kept : Nat := 0
  urls_removed : Nat := 0
  folders_pruned : Nat := 0
deriving DecidableEq, Repr

/-! ## Dedupe-and-prune engine (`prune_and_dedupe`)

The Python function mutates a shared `seen` set and `stats` dict while
walking `folder.children` left to right, recursing into subfolders; here the
state is threaded explicitly.  `if norm and norm not in seen` keeps a
bookmark; a recursed folder is kept iff its new child list is nonempty,
otherwise `folders_pruned` is bumped. -/

def pruneListM : List Node → List String → Stats → List Node × List String × Stats
  | [], seen, st => ([], seen, st)
  | Node.bm b :: rest, seen, st =>
    if normalize_url b.href ≠ "" ∧ normalize_url b.href ∉ seen then
      let r := pruneListM rest (normalize_url b.href :: seen) { st with urls_kept := st.urls_kept + 1 }
      (Node.bm b :: r.1, r.2)
    else pruneListM rest seen { st with urls_removed := st.urls_removed + 1 }
  | Node.folder nm a cs :: rest, seen, st =>
    let rc := pruneListM cs seen st
    if !rc.1.isEmpty then
      let rr := pruneListM rest rc.2.1 rc.2.2
      (Node.folder nm a rc.1 :: rr.1, rr.2)
    else
      pruneListM rest rc.2.1
        { rc.2.2 with folders_pruned := rc.2.2.folders_pruned + 1 }

/-- Top-level call on the root folder: the root itself is always returned
(with its pruned children), so it is never dropped. -/
def prune_and_dedupe (name : String) (attrs : List (String × String))
    (children : List Node) : Node × Stats :=
  let r := pruneListM children [] {}
  (Node.folder name attrs r.1, r.2.2)

/-! ## Folder-name normalisation (`norm_folder_name`) -/

def nbspChar : Char := Char.ofNat 0xA0

/-- Model of the whitespace class of Python `re` / `str.strip` on the code
points the tools can meet (ASCII whitespace, the C1 NEL, NBSP, and the
0x1C-0x1F separators). -/
def isPyWs (c : Char) : Bool :=
  c = ' ' || c = '\t' || c = '\n' || c = '\r' || c = Char.ofNat 0x0B || c = Char.ofNat 0x0C ||
    c = Char.ofNat 0x1C || c = Char.ofNat 0x1D || c = Char.ofNat 0x1E || c = Char.ofNat 0x1F ||
    c = Char.ofNat 0x85 || c = nbspChar

/-- `re.sub(r"\s+", " ", n)`: every maximal whitespace run becomes one
space.  The boolean argument records whether the previous character was
inside a run. -/
def collapseWsA : Bool → List Char → List Char
  | _, [] => []
  | inRun, c :: cs =>
    if isPyWs c then
      if inRun then collapseWsA true cs else ' ' :: collapseWsA true cs
    else c :: collapseWsA false cs

def stripEnds (p : Char → Bool) (l : List Char) : List Char :=
  ((l.dropWhile p).reverse.dropWhile p).reverse

/-- Characters of the literal strip set `"/|-:.Â·;"` in the source (the
`Â` mojibake byte is part of the file's literal). -/
def punctStripSet : List Char := ['/', '|', '-', ':', '.', 'Â', '·', ';']

def norm_folder_name (name : String) : String :=
  let n1 := name.data.map (fun c => if c = nbspChar then ' ' else c)
  let n2 := collapseWsA false n1
  let n3 := stripEnds isPyWs n2
  let n4 := n3.map lowerPy
  String.mk (stripEnds (fun c => punctStripSet.contains c) n4)

/-! ## Flatten-and-merge engine (`collect_flat_buckets`,
`dedupe_bookmarks_globally`)

Python's insertion-ordered dict of buckets is an association list here;
keys are created at the end, and updates keep position. -/

structure Bucket where
  display_name : String
  bookmarks : List Bm
  h3_attrs : List (String × String)
deriving DecidableEq, Repr

abbrev Buckets := List (String × Bucket)

def unsortedKey : String := "__unsorted__"

def bucketsContains (B : Buckets) (k : String) : Bool := B.any (fun p => p.1 = k)

def bucketsUpdate (B : Buckets) (k : String) (f : Bucket → Bucket) : Buckets :=
  B.map (fun p => if p.1 = k then (p.1, f p.2) else p)

def bmsOfItems (items : List Node) : List Bm :=
  items.filterMap (fun n => match n with | Node.bm b => some b | _ => none)

/-- `add_to_bucket(folder_name, h3_attrs, items)`: create the bucket on
first sight of the key (first-seen display name), install the attributes
whenever the stored ones are still empty, and append the `Bookmark` items. -/
def add_to_bucket (B : Buckets) (folder_name : Option String)
    (h3 : List (String × String)) (items : List Node) : Buckets :=
  let key0 := norm_folder_name (folder_name.getD "")
  let key := if key0 = "" then unsortedKey else key0
  let B1 :=
    if bucketsContains B key then B
    else
      B ++ [(key,
        { display_name :=
            match folder_name with
            | none => "Unsorted"
            | some s => if s = "" then "Unsorted" else s,
          bookmarks := [], h3_attrs := h3 })]
  bucketsUpdate B1 key fun b =>
    { b with
      h3_attrs := if b.h3_attrs = [] then h3 else b.h3_attrs,
      bookmarks := b.bookmarks ++ bmsOfItems items }

/-- Pre-order walk of `collect_flat_buckets.walk`: each non-root folder
contributes one `add_to_bucket` call with its direct children before its
subfolders are visited. -/
def walkList : List Node → Buckets → Buckets
  | [], B => B
  | Node.bm _ :: rest, B => walkList rest B
  | Node.folder n a cs :: rest, B =>
    walkList rest (walkList cs (add_to_bucket B (some n) a cs))

def collect_flat_buckets (rootChildren : List Node) : Buckets :=
  let B0 : Buckets := [(unsortedKey, { display_name := "Unsorted", bookmarks := [], h3_attrs := [] })]
  walkList rootChildren (add_to_bucket B0 none [] rootChildren)

structure FlatStats where
  urls_kept : Nat := 0
  urls_removed : Nat := 0
  folders_total : Nat := 0
deriving DecidableEq, Repr

def dedupeBmList : List Bm → List String → FlatStats → List Bm × List String × FlatStats
  | [], seen, st => ([], seen, st)
  | b :: rest, seen, st =>
    if normalize_url b.href ≠ "" ∧ normalize_url b.href ∉ seen then
      let r := dedupeBmList rest (normalize_url b.href :: seen) { st with urls_kept := st.urls_kept + 1 }
      (b :: r.1, r.2)
    else dedupeBmList rest seen { st with urls_removed := st.urls_removed + 1 }

def dedupeBucketsGo : Buckets → List String → FlatStats → Buckets × FlatStats
  | [], _, st => ([], st)
  | (k, b) :: rest, seen, st =>
    let r := dedupeBmList b.bookmarks seen st
    let st1 :=
      if r.1 ≠ [] then { r.2.2 with folders_total := r.2.2.folders_total + 1 } else r.2.2
    let rr := dedupeBucketsGo rest r.2.1 st1
    ((k, { b with bookmarks := r.1 }) :: rr.1, rr.2)

def dedupe_bookmarks_globally (B : Buckets) : Buckets × FlatStats :=
  dedupeBucketsGo B [] {}

/-! ## Document-order views of a forest -/

def bmsForest : List Node → List Bm
  | [] => []
  | Node.bm b :: rest => b :: bmsForest rest
  | Node.folder _ _ cs :: rest => bmsForest cs ++ bmsForest rest

def countFoldersF : List Node → Nat
  | [] => 0
  | Node.bm _ :: rest => countFoldersF rest
  | Node.folder _ _ cs :: rest => 1 + countFoldersF cs + countFoldersF rest

/-- Every folder anywhere in the forest has at least one child. -/
def noEmptyFolders : List Node → Bool
  | [] => true
  | Node.bm _ :: rest => noEmptyFolders rest
  | Node.folder _ _ cs :: rest => (!cs.isEmpty) && noEmptyFolders cs && noEmptyFolders rest

/-- Modelled from the spec: the document-order first-occurrence filter.
Keeps a bookmark exactly when its normalised href is a nonempty key not yet
seen, and returns the grown seen set. -/
def keepFirstsAux : List Bm → List String → List Bm × List String
  | [], seen => ([], seen)
  | b :: rest, seen =>
    if normalize_url b.href ≠ "" ∧ normalize_url b.href ∉ seen then
      let r := keepFirstsAux rest (normalize_url b.href :: seen)
      (b :: r.1, r.2)
    else keepFirstsAux rest seen

def keepFirsts (l : List Bm) (seen : List String) : List Bm := (keepFirstsAux l seen).1

/-! ## Event view of the flatten walk

`collect_flat_buckets` is a left fold of `add_to_bucket` over the walk-order
sequence of `(folder_name, attrs, items)` calls; the root contributes the
first event, every non-root folder one event in pre-order. -/

structure FEvent where
  fname : Option String
  fattrs : List (String × String)
  items : List Node

def eventsOf : List Node → List FEvent
  | [] => []
  | Node.bm _ :: rest => eventsOf rest
  | Node.folder n a cs :: rest => ⟨some n, a, cs⟩ :: (eventsOf cs ++ eventsOf rest)

def allEvents (rootChildren : List Node) : List FEvent :=
  ⟨none, [], rootChildren⟩ :: eventsOf rootChildren

def stepBucket (B : Buckets) (e : FEvent) : Buckets :=
  add_to_bucket B e.fname e.fattrs e.items

def eventKey (e : FEvent) : String :=
  let k := norm_folder_name (e.fname.getD "")
  if k = "" then unsortedKey else k

def displayOf (e : FEvent) : String :=
  match e.fname with
  | none => "Unsorted"
  | some s => if s = "" then "Unsorted" else s

def eventsFor (k : String) (es : List FEvent) : List FEvent :=
  es.filter (fun e => eventKey e = k)

def firstNonemptyAttrs : List FEvent → List (String × String)
  | [] => []
  | e :: rest => if e.fattrs ≠ [] then e.fattrs else firstNonemptyAttrs rest

/-- Expected content of the bucket for key `k` after folding the events:
the reserved unsorted bucket always exists; any other key exists iff some
event carries it, with the first such event's display name, the bookmarks of
all its events in order, and the first nonempty attributes among them. -/
def expectedBucket (k : String) (es : List FEvent) : Option Bucket :=
  if k = unsortedKey then
    some ⟨"Unsorted", (eventsFor k es).flatMap (fun e => bmsOfItems e.items),
      firstNonemptyAttrs (eventsFor k es)⟩
  else
    match eventsFor k es with
    | [] => none
    | e :: _ =>
      some ⟨displayOf e, (eventsFor k es).flatMap (fun e => bmsOfItems e.items),
        firstNonemptyAttrs (eventsFor k es)⟩

/-- First bucket stored under key `k` (Python dict lookup: keys are unique
there, and key uniqueness is an invariant of the fold here). -/
def bucketsFind : Buckets → String → Option Bucket
  | [], _ => none
  | (k', b) :: rest, k => if k' = k then some b else bucketsFind rest k

/-- Total number of stored bookmarks across all buckets. -/
def bucketsBmCount (B : Buckets) : Nat := (B.map fun p => p.2.bookmarks.length).sum

/-- The seeded bucket map the walk starts from. -/
def seedBuckets : Buckets :=
  [(unsortedKey, { display_name := "Unsorted", bookmarks := [], h3_attrs := [] })]

unseal pruneListM bmsForest countFoldersF noEmptyFolders walkList eventsOf

/-! ## Lemmas: first-occurrence filter and the prune engine -/

theorem keepFirstsAux_append (l1 l2 : List Bm) (seen : List String) :
    keepFirstsAux (l1 ++ l2) seen =
      ((keepFirstsAux l1 seen).1 ++ (keepFirstsAux l2 (keepFirstsAux l1 seen).2).1,
       (keepFirstsAux l2 (keepFirstsAux l1 seen).2).2) := by
  induction l1 generalizing seen with
  | nil => simp [keepFirstsAux]
  | cons b rest ih =>
    simp only [keepFirstsAux, List.cons_append, List.append_eq]
    by_cases h : normalize_url b.href ≠ "" ∧ normalize_url b.href ∉ seen
    · simp only [if_pos h, ih, List.cons_append]
    · simp only [if_neg h, ih]

/-- Full behaviour of the prune engine relative to the document-order
first-occurrence filter: surviving bookmarks, final seen set, the three
statistics, and absence of empty folders in the output. -/
theorem pruneListM_spec (cs : List Node) (seen : List String) (st : Stats) :
    bmsForest (pruneListM cs seen st).1 = (keepFirstsAux (bmsForest cs) seen).1 ∧
    (pruneListM cs seen st).2.1 = (keepFirstsAux (bmsForest cs) seen).2 ∧
    (pruneListM cs seen st).2.2.urls_kept
        = st.urls_kept + (keepFirstsAux (bmsForest cs) seen).1.length ∧
    (pruneListM cs seen st).2.2.urls_removed + (keepFirstsAux (bmsForest cs) seen).1.length
        = st.urls_removed + (bmsForest cs).length ∧
    (pruneListM cs seen st).2.2.folders_pruned + countFoldersF (pruneListM cs seen st).1
        = st.folders_pruned + countFoldersF cs ∧
    noEmptyFolders (pruneListM cs seen st).1 = true := by
  induction cs, seen, st using pruneListM.induct with
  | case1 seen st =>
    simp [pruneListM, bmsForest, keepFirstsAux, countFoldersF, noEmptyFolders]
  | case2 b rest seen st h ih =>
    obtain ⟨e1, e2, e3, e4, e5, e6⟩ := ih
    dsimp only at e3 e4 e5
    simp only [pruneListM, if_pos h, bmsForest, keepFirstsAux, List.length_cons,
      countFoldersF, noEmptyFolders]
    refine ⟨?_, ?_, ?_, ?_, ?_, ?_⟩
    · simpa [bmsForest] using e1
    · exact e2
    · rw [e3]; omega
    · try simp only [List.length_cons] at e4 ⊢
      omega
    · exact e5
    · exact e6
  | case3 b rest seen st h ih =>
    obtain ⟨e1, e2, e3, e4, e5, e6⟩ := ih
    dsimp only at e3 e4 e5
    simp only [pruneListM, if_neg h, bmsForest, keepFirstsAux, List.length_cons,
      countFoldersF, noEmptyFolders]
    refine ⟨e1, e2, ?_, ?_, ?_, e6⟩
    · exact e3
    · try simp only [List.length_cons] at e4 ⊢
      omega
    · exact e5
  | case4 nm a cs rest seen st rc hc ih1 ih2 =>
    obtain ⟨c1, c2, c3, c4, c5, c6⟩ := ih1
    obtain ⟨d1, d2, d3, d4, d5, d6⟩ := ih2
    rw [show rc = pruneListM cs seen st from rfl] at d1 d2 d3 d4 d5 d6
    try dsimp only at c1 c2 c3 c4 c5 c6 d1 d2 d3 d4 d5 d6
    have hc2 : (!(pruneListM cs seen st).1.isEmpty) = true := hc
    simp only [pruneListM, hc2, if_true, bmsForest, countFoldersF, noEmptyFolders]
    rw [keepFirstsAux_append]
    rw [c2] at d1 d2 d3 d4 d5 d6 ⊢
    refine ⟨?_, ?_, ?_, ?_, ?_, ?_⟩
    · simp only [bmsForest]
      rw [c1, d1]
    · exact d2
    · rw [d3, c3, List.length_append]
      omega
    · rw [List.length_append, List.length_append]
      omega
    · try simp only [countFoldersF]
      omega
    · simp only [Bool.and_eq_true, Bool.not_eq_true']
      refine ⟨⟨?_, c6⟩, d6⟩
      trivial
  | case5 nm a cs rest seen st rc hc ih1 ih2 =>
    obtain ⟨c1, c2, c3, c4, c5, c6⟩ := ih1
    obtain ⟨d1, d2, d3, d4, d5, d6⟩ := ih2
    rw [show rc = pruneListM cs seen st from rfl] at d1 d2 d3 d4 d5 d6
    try dsimp only at c1 c2 c3 c4 c5 c6 d1 d2 d3 d4 d5 d6
    have hc2 : (!(pruneListM cs seen st).1.isEmpty) = false := by
      have h2 : (!rc.1.isEmpty) ≠ true := hc
      simpa using h2
    have hnil : (pruneListM cs seen st).1 = [] := by
      cases h : (pruneListM cs seen st).1 with
      | nil => rfl
      | cons x xs => rw [h] at hc2; simp at hc2
    rw [hnil] at c1 c5
    simp only [bmsForest] at c1
    simp only [countFoldersF] at c5
    simp only [pruneListM, hc2, Bool.false_eq_true, if_false, bmsForest, countFoldersF]
    rw [keepFirstsAux_append]
    rw [c2] at d1 d2 d3 d4 d5 d6 ⊢
    have hkeep0 : (keepFirstsAux (bmsForest cs) seen).1.length = 0 := by rw [← c1]; rfl
    refine ⟨?_, ?_, ?_, ?_, ?_, d6⟩
    · rw [d1, ← c1]
      simp
    · exact d2
    · rw [d3, c3, List.length_append]
      omega
    · rw [List.length_append, List.length_append]
      omega
    · omega

/-! ## Lemmas: global dedupe over buckets -/

theorem keepFirstsAux_sublist (l : List Bm) (seen : List String) :
    (keepFirstsAux l seen).1.Sublist l := by
  induction l generalizing seen with
  | nil => simp [keepFirstsAux]
  | cons b rest ih =>
    simp only [keepFirstsAux]
    by_cases h : normalize_url b.href ≠ "" ∧ normalize_url b.href ∉ seen
    · simpa [if_pos h] using (ih _).cons₂ b
    · simpa [if_neg h] using (ih _).cons b

theorem dedupeBmList_spec (l : List Bm) (seen : List String) (st : FlatStats) :
    (dedupeBmList l seen st).1 = (keepFirstsAux l seen).1 ∧
    (dedupeBmList l seen st).2.1 = (keepFirstsAux l seen).2 ∧
    (dedupeBmList l seen st).2.2.urls_kept = st.urls_kept + (keepFirstsAux l seen).1.length ∧
    (dedupeBmList l seen st).2.2.urls_removed + (keepFirstsAux l seen).1.length
        = st.urls_removed + l.length ∧
    (dedupeBmList l seen st).2.2.folders_total = st.folders_total := by
  induction l generalizing seen st with
  | nil => simp [dedupeBmList, keepFirstsAux]
  | cons b rest ih =>
    simp only [dedupeBmList, keepFirstsAux]
    by_cases h : normalize_url b.href ≠ "" ∧ normalize_url b.href ∉ seen
    · obtain ⟨e1, e2, e3, e4, e5⟩ := ih (normalize_url b.href :: seen)
        { st with urls_kept := st.urls_kept + 1 }
      dsimp only at e3 e4 e5
      rw [if_pos h, if_pos h]
      refine ⟨by simpa using e1, e2, ?_, ?_, e5⟩
      · rw [e3]; simp; omega
      · simp only [List.length_cons]; omega
    · obtain ⟨e1, e2, e3, e4, e5⟩ := ih seen { st with urls_removed := st.urls_removed + 1 }
      dsimp only at e3 e4 e5
      rw [if_neg h, if_neg h]
      refine ⟨e1, e2, e3, ?_, e5⟩
      simp only [List.length_cons]
      omega

/-- Relation between an output bucket entry and its input: same key, same
display name and attributes, and the surviving bookmarks are a subsequence
of the originals. -/
def bucketShrinks (a b : String × Bucket) : Prop :=
  a.1 = b.1 ∧ a.2.display_name = b.2.display_name ∧ a.2.h3_attrs = b.2.h3_attrs ∧
    a.2.bookmarks.Sublist b.2.bookmarks

theorem dedupeBucketsGo_spec (B : Buckets) (seen : List String) (st : FlatStats) :
    ((dedupeBucketsGo B seen st).1.flatMap fun p => p.2.bookmarks)
        = (keepFirstsAux (B.flatMap fun p => p.2.bookmarks) seen).1 ∧
    List.Forall₂ bucketShrinks (dedupeBucketsGo B seen st).1 B ∧
    (dedupeBucketsGo B seen st).2.urls_kept
        = st.urls_kept + (keepFirstsAux (B.flatMap fun p => p.2.bookmarks) seen).1.length ∧
    (dedupeBucketsGo B seen st).2.urls_removed
          + (keepFirstsAux (B.flatMap fun p => p.2.bookmarks) seen).1.length
        = st.urls_removed + (B.flatMap fun p => p.2.bookmarks).length := by
  induction B generalizing seen st with
  | nil => simp [dedupeBucketsGo, keepFirstsAux]
  | cons kb rest ih =>
    obtain ⟨k, b⟩ := kb
    obtain ⟨b1, b2, b3, b4, b5⟩ := dedupeBmList_spec b.bookmarks seen st
    simp only [dedupeBucketsGo, List.flatMap_cons, keepFirstsAux_append]
    by_cases hne : (dedupeBmList b.bookmarks seen st).1 ≠ []
    · obtain ⟨i1, i2, i3, i4⟩ := ih (dedupeBmList b.bookmarks seen st).2.1
        { (dedupeBmList b.bookmarks seen st).2.2 with
          folders_total := (dedupeBmList b.bookmarks seen st).2.2.folders_total + 1 }
      rw [if_pos hne]
      try dsimp only at i1 i2 i3 i4 ⊢
      rw [b2] at i1 i2 i3 i4 ⊢
      refine ⟨?_, ?_, ?_, ?_⟩
      · simp only [List.flatMap_cons, b1, i1]
      · exact List.Forall₂.cons ⟨rfl, rfl, rfl, b1 ▸ keepFirstsAux_sublist _ _⟩ i2
      · rw [i3, b3, List.length_append]; omega
      · rw [List.length_append, List.length_append] at *
        omega
    · obtain ⟨i1, i2, i3, i4⟩ := ih (dedupeBmList b.bookmarks seen st).2.1
        (dedupeBmList b.bookmarks seen st).2.2
      rw [if_neg hne]
      try dsimp only at i1 i2 i3 i4 ⊢
      rw [b2] at i1 i2 i3 i4 ⊢
      refine ⟨?_, ?_, ?_, ?_⟩
      · simp only [List.flatMap_cons, b1, i1]
      · exact List.Forall₂.cons ⟨rfl, rfl, rfl, b1 ▸ keepFirstsAux_sublist _ _⟩ i2
      · rw [i3, b3, List.length_append]; omega
      · rw [List.length_append, List.length_append] at *
        omega

/-! ## Lemmas: the flatten walk as a fold over events -/

theorem walkList_eq_foldl (cs : List Node) (B : Buckets) :
    walkList cs B = (eventsOf cs).foldl stepBucket B := by
  induction cs, B using walkList.induct with
  | case1 B => simp [walkList, eventsOf]
  | case2 b rest B ih => simpa [walkList, eventsOf] using ih
  | case3 n a cs rest B ih1 ih2 =>
    simp only [walkList]
    rw [ih2, ih1]
    simp only [eventsOf, List.foldl_cons, List.foldl_append]
    rfl

theorem bucketsContains_iff (B : Buckets) (k : String) :
    bucketsContains B k = true ↔ k ∈ B.map Prod.fst := by
  induction B with
  | nil => simp [bucketsContains]
  | cons p rest ih =>
    simp only [bucketsContains, List.any_cons, List.map_cons, List.mem_cons, Bool.or_eq_true,
      decide_eq_true_eq]
    rw [bucketsContains] at ih
    constructor
    · rintro (h | h)
      · exact Or.inl h.symm
      · exact Or.inr (ih.1 h)
    · rintro (h | h)
      · exact Or.inl h.symm
      · exact Or.inr (ih.2 h)

theorem bucketsFind_none_of_not_mem (B : Buckets) (k : String)
    (h : k ∉ B.map Prod.fst) : bucketsFind B k = none := by
  induction B with
  | nil => rfl
  | cons p rest ih =>
    simp only [List.map_cons, List.mem_cons, not_or] at h
    simp only [bucketsFind]
    rw [if_neg (by exact fun e => h.1 e.symm)]
    exact ih h.2

theorem bucketsFind_update_self (B : Buckets) (k : String) (f : Bucket → Bucket) :
    bucketsFind (bucketsUpdate B k f) k = (bucketsFind B k).map f := by
  induction B with
  | nil => rfl
  | cons p rest ih =>
    obtain ⟨k', b⟩ := p
    by_cases h : k' = k
    · subst h
      simp only [bucketsUpdate, List.map_cons]
      simp [bucketsFind]
    · simp only [bucketsUpdate, List.map_cons] at *
      rw [if_neg h]
      simp only [bucketsFind, if_neg h]
      exact ih

theorem bucketsFind_update_other (B : Buckets) (k k' : String) (f : Bucket → Bucket)
    (h : k ≠ k') : bucketsFind (bucketsUpdate B k f) k' = bucketsFind B k' := by
  induction B with
  | nil => rfl
  | cons p rest ih =>
    obtain ⟨k0, b⟩ := p
    by_cases h0 : k0 = k
    · subst h0
      simp only [bucketsUpdate, List.map_cons, if_pos rfl]
      simp only [bucketsFind, if_neg h]
      exact ih
    · simp only [bucketsUpdate, List.map_cons, if_neg h0]
      simp only [bucketsFind]
      by_cases h1 : k0 = k'
      · simp [h1]
      · rw [if_neg h1, if_neg h1]
        exact ih

theorem bucketsFind_append_single (B : Buckets) (k : String) (b : Bucket) :
    bucketsFind (B ++ [(k, b)]) k = match bucketsFind B k with
      | some b0 => some b0
      | none => some b := by
  induction B with
  | nil => simp [bucketsFind]
  | cons p rest ih =>
    obtain ⟨k0, b0⟩ := p
    by_cases h : k0 = k
    · simp [bucketsFind, h]
    · simp only [List.cons_append, bucketsFind, if_neg h]
      exact ih

theorem bucketsFind_append_single_other (B : Buckets) (k k' : String) (b : Bucket)
    (h : k ≠ k') : bucketsFind (B ++ [(k, b)]) k' = bucketsFind B k' := by
  induction B with
  | nil => simp [bucketsFind, h]
  | cons p rest ih =>
    obtain ⟨k0, b0⟩ := p
    by_cases h0 : k0 = k'
    · simp [bucketsFind, h0]
    · simp only [List.cons_append, bucketsFind, if_neg h0]
      exact ih

theorem bucketsFind_isSome_of_mem (B : Buckets) (k : String)
    (h : k ∈ B.map Prod.fst) : (bucketsFind B k).isSome = true := by
  induction B with
  | nil => simp at h
  | cons p rest ih =>
    obtain ⟨k0, b0⟩ := p
    simp only [List.map_cons, List.mem_cons] at h
    simp only [bucketsFind]
    by_cases h0 : k0 = k
    · simp [h0]
    · rw [if_neg h0]
      exact ih (h.resolve_left (fun e => h0 e.symm))

/-- Effect of one `add_to_bucket` call on the bucket of its own key. -/
theorem add_to_bucket_find_self (B : Buckets) (e : FEvent) :
    bucketsFind (stepBucket B e) (eventKey e) =
      match bucketsFind B (eventKey e) with
      | some b => some { b with
          h3_attrs := if b.h3_attrs = [] then e.fattrs else b.h3_attrs,
          bookmarks := b.bookmarks ++ bmsOfItems e.items }
      | none => some ⟨displayOf e, bmsOfItems e.items, e.fattrs⟩ := by
  obtain ⟨fn, a, items⟩ := e
  have hkey : eventKey ⟨fn, a, items⟩ =
      (if norm_folder_name (fn.getD "") = "" then unsortedKey else norm_folder_name (fn.getD "")) := rfl
  by_cases hc : bucketsContains B (eventKey ⟨fn, a, items⟩) = true
  · have hsome := bucketsFind_isSome_of_mem B _ ((bucketsContains_iff B _).1 hc)
    obtain ⟨b, hb⟩ := Option.isSome_iff_exists.1 hsome
    simp only [stepBucket, add_to_bucket, ← hkey, if_pos hc]
    rw [bucketsFind_update_self, hb]
    rfl
  · have hnm : eventKey ⟨fn, a, items⟩ ∉ B.map Prod.fst := by
      intro hmem
      exact hc ((bucketsContains_iff B _).2 hmem)
    have hnone : bucketsFind B (eventKey ⟨fn, a, items⟩) = none :=
      bucketsFind_none_of_not_mem B _ hnm
    simp only [stepBucket, add_to_bucket, ← hkey, if_neg hc]
    rw [bucketsFind_update_self, bucketsFind_append_single, hnone]
    cases fn <;> simp [displayOf, ite_self]

/-- An `add_to_bucket` call leaves every other key untouched. -/
theorem add_to_bucket_find_other (B : Buckets) (e : FEvent) (k : String)
    (h : eventKey e ≠ k) : bucketsFind (stepBucket B e) k = bucketsFind B k := by
  obtain ⟨fn, a, items⟩ := e
  have hkey : eventKey ⟨fn, a, items⟩ =
      (if norm_folder_name (fn.getD "") = "" then unsortedKey else norm_folder_name (fn.getD "")) := rfl
  by_cases hc : bucketsContains B (eventKey ⟨fn, a, items⟩) = true
  · simp only [stepBucket, add_to_bucket, ← hkey, if_pos hc]
    exact bucketsFind_update_other _ _ _ _ h
  · simp only [stepBucket, add_to_bucket, ← hkey, if_neg hc]
    rw [bucketsFind_update_other _ _ _ _ h, bucketsFind_append_single_other _ _ _ _ h]

/-- Folding a sequence of events over any starting bucket map: the bucket
stored under `k` at the end, in terms of the events whose key is `k`. -/
theorem foldl_step_find (es : List FEvent) (B : Buckets) (k : String) :
    bucketsFind (es.foldl stepBucket B) k =
      match bucketsFind B k with
      | some b => some { b with
          h3_attrs := if b.h3_attrs = [] then firstNonemptyAttrs (eventsFor k es) else b.h3_attrs,
          bookmarks := b.bookmarks ++ (eventsFor k es).flatMap (fun e => bmsOfItems e.items) }
      | none =>
        match eventsFor k es with
        | [] => none
        | e :: _ =>
          some ⟨displayOf e, (eventsFor k es).flatMap (fun e => bmsOfItems e.items),
            firstNonemptyAttrs (eventsFor k es)⟩ := by
  induction es generalizing B with
  | nil =>
    simp only [List.foldl_nil, eventsFor, List.filter_nil, firstNonemptyAttrs, List.flatMap_nil,
      List.append_nil]
    cases hb : bucketsFind B k with
    | none => simp
    | some b =>
      obtain ⟨d, bk, h3⟩ := b
      by_cases hb3 : h3 = [] <;> simp_all
  | cons e0 es ih =>
    simp only [List.foldl_cons]
    by_cases hk : eventKey e0 = k
    · have hstep := add_to_bucket_find_self B e0
      rw [hk] at hstep
      have hfor : eventsFor k (e0 :: es) = e0 :: eventsFor k es := by
        simp [eventsFor, List.filter_cons, hk]
      rw [ih (stepBucket B e0), hstep, hfor]
      cases hb : bucketsFind B k with
      | some b =>
        simp only [firstNonemptyAttrs, List.flatMap_cons, List.append_assoc]
        by_cases hb3 : b.h3_attrs = []
        · rw [if_pos hb3]
          by_cases ha : e0.fattrs = []
          · simp [ha, hb3]
          · simp [ha, hb3, if_neg ha]
        · simp [hb3]
      | none =>
        simp only [firstNonemptyAttrs, List.flatMap_cons]
        by_cases ha : e0.fattrs = []
        · simp [ha]
        · simp [ha]
    · have hstep := add_to_bucket_find_other B e0 k hk
      have hfor : eventsFor k (e0 :: es) = eventsFor k es := by
        simp [eventsFor, List.filter_cons, hk]
      rw [ih (stepBucket B e0), hstep, hfor]

theorem bucketsUpdate_map_fst (B : Buckets) (k : String) (f : Bucket → Bucket) :
    (bucketsUpdate B k f).map Prod.fst = B.map Prod.fst := by
  induction B with
  | nil => rfl
  | cons p rest ih =>
    by_cases h : p.1 = k
    · simp only [bucketsUpdate, List.map_cons, if_pos h] at *
      rw [ih]
    · simp only [bucketsUpdate, List.map_cons, if_neg h] at *
      rw [ih]

theorem bucketsUpdate_of_not_mem (B : Buckets) (k : String) (f : Bucket → Bucket)
    (h : k ∉ B.map Prod.fst) : bucketsUpdate B k f = B := by
  induction B with
  | nil => rfl
  | cons p rest ih =>
    simp only [List.map_cons, List.mem_cons, not_or] at h
    simp only [bucketsUpdate, List.map_cons]
    rw [if_neg (fun e => h.1 e.symm)]
    have := ih h.2
    simp only [bucketsUpdate] at this
    rw [this]

theorem bucketsUpdate_count (B : Buckets) (k : String) (f : Bucket → Bucket) (n : Nat)
    (hnd : (B.map Prod.fst).Nodup) (hmem : k ∈ B.map Prod.fst)
    (hf : ∀ b, (f b).bookmarks.length = b.bookmarks.length + n) :
    bucketsBmCount (bucketsUpdate B k f) = bucketsBmCount B + n := by
  induction B with
  | nil => simp at hmem
  | cons p rest ih =>
    simp only [List.map_cons, List.nodup_cons] at hnd
    simp only [List.map_cons, List.mem_cons] at hmem
    by_cases h2 : p.1 = k
    · have hnotin : k ∉ rest.map Prod.fst := h2 ▸ hnd.1
      simp only [bucketsUpdate, List.map_cons, if_pos h2]
      have hrest := bucketsUpdate_of_not_mem rest k f hnotin
      simp only [bucketsUpdate] at hrest
      rw [hrest]
      simp only [bucketsBmCount, List.map_cons, List.sum_cons, hf]
      omega
    · rcases hmem with hm | hm
      · exact absurd hm.symm h2
      · simp only [bucketsUpdate, List.map_cons, if_neg h2]
        have := ih hnd.2 hm
        simp only [bucketsUpdate] at this
        simp only [bucketsBmCount, List.map_cons, List.sum_cons] at this ⊢
        omega

/-- Keys of the bucket map only grow by the event's key. -/
theorem add_to_bucket_keys (B : Buckets) (e : FEvent) :
    (stepBucket B e).map Prod.fst = B.map Prod.fst ∨
      (stepBucket B e).map Prod.fst = B.map Prod.fst ++ [eventKey e] := by
  obtain ⟨fn, a, items⟩ := e
  have hkey : eventKey ⟨fn, a, items⟩ =
      (if norm_folder_name (fn.getD "") = "" then unsortedKey else norm_folder_name (fn.getD "")) := rfl
  by_cases hc : bucketsContains B (eventKey ⟨fn, a, items⟩) = true
  · left
    simp only [stepBucket, add_to_bucket, ← hkey, if_pos hc, bucketsUpdate_map_fst]
  · right
    simp only [stepBucket, add_to_bucket, ← hkey, if_neg hc, bucketsUpdate_map_fst,
      List.map_append]
    rfl

theorem add_to_bucket_keys_nodup (B : Buckets) (e : FEvent)
    (h : (B.map Prod.fst).Nodup) : ((stepBucket B e).map Prod.fst).Nodup := by
  obtain ⟨fn, a, items⟩ := e
  have hkey : eventKey ⟨fn, a, items⟩ =
      (if norm_folder_name (fn.getD "") = "" then unsortedKey else norm_folder_name (fn.getD "")) := rfl
  by_cases hc : bucketsContains B (eventKey ⟨fn, a, items⟩) = true
  · simpa only [stepBucket, add_to_bucket, ← hkey, if_pos hc, bucketsUpdate_map_fst] using h
  · have hnm : eventKey ⟨fn, a, items⟩ ∉ B.map Prod.fst := fun hmem =>
      hc ((bucketsContains_iff B _).2 hmem)
    simp only [stepBucket, add_to_bucket, ← hkey, if_neg hc, bucketsUpdate_map_fst,
      List.map_append, List.map_cons, List.map_nil]
    exact List.Nodup.append h (List.nodup_singleton _)
      (fun x hx hmem => hnm (by rwa [List.mem_singleton.mp hmem] at hx))

/-- Bookmark-count effect of one event under unique keys. -/
theorem add_to_bucket_count (B : Buckets) (e : FEvent)
    (h : (B.map Prod.fst).Nodup) :
    bucketsBmCount (stepBucket B e) = bucketsBmCount B + (bmsOfItems e.items).length := by
  obtain ⟨fn, a, items⟩ := e
  have hkey : eventKey ⟨fn, a, items⟩ =
      (if norm_folder_name (fn.getD "") = "" then unsortedKey else norm_folder_name (fn.getD "")) := rfl
  by_cases hc : bucketsContains B (eventKey ⟨fn, a, items⟩) = true
  · simp only [stepBucket, add_to_bucket, ← hkey, if_pos hc]
    exact bucketsUpdate_count B _ _ _ h ((bucketsContains_iff B _).1 hc) (fun b => by simp)
  · have hnm : eventKey ⟨fn, a, items⟩ ∉ B.map Prod.fst := fun hmem =>
      hc ((bucketsContains_iff B _).2 hmem)
    simp only [stepBucket, add_to_bucket, ← hkey, if_neg hc]
    rw [bucketsUpdate_count _ _ _ (bmsOfItems items).length ?_ ?_ (fun b => by simp)]
    · simp [bucketsBmCount]
    · simp only [List.map_append, List.map_cons, List.map_nil]
      exact List.Nodup.append h (List.nodup_singleton _)
        (fun x hx hmem => hnm (by rwa [List.mem_singleton.mp hmem] at hx))
    · simp

theorem foldl_step_nodup (es : List FEvent) (B : Buckets)
    (h : (B.map Prod.fst).Nodup) : ((es.foldl stepBucket B).map Prod.fst).Nodup := by
  induction es generalizing B with
  | nil => exact h
  | cons e es ih => exact ih _ (add_to_bucket_keys_nodup B e h)

theorem foldl_step_count (es : List FEvent) (B : Buckets)
    (h : (B.map Prod.fst).Nodup) :
    bucketsBmCount (es.foldl stepBucket B)
      = bucketsBmCount B + (es.map fun e => (bmsOfItems e.items).length).sum := by
  induction es generalizing B with
  | nil => simp
  | cons e es ih =>
    simp only [List.foldl_cons, List.map_cons, List.sum_cons]
    rw [ih _ (add_to_bucket_keys_nodup B e h), add_to_bucket_count B e h]
    omega

/-- Every bookmark of the forest is a direct child of exactly one node, so
the total bookmark count decomposes over the walk events. -/
theorem bmsForest_event_count (cs : List Node) :
    (bmsForest cs).length
      = (bmsOfItems cs).length + ((eventsOf cs).map fun e => (bmsOfItems e.items).length).sum := by
  induction cs using eventsOf.induct with
  | case1 => simp [bmsForest, bmsOfItems, eventsOf]
  | case2 b rest ih =>
    simp only [bmsForest, bmsOfItems, eventsOf, List.length_cons, List.filterMap_cons] at *
    omega
  | case3 n a cs rest ih1 ih2 =>
    simp only [bmsForest, bmsOfItems, eventsOf, List.length_append, List.filterMap_cons,
      List.map_cons, List.map_append, List.sum_cons, List.sum_append] at *
    omega

theorem flatMap_bookmarks_length (B : Buckets) :
    (B.flatMap fun p => p.2.bookmarks).length = bucketsBmCount B := by
  induction B with
  | nil => rfl
  | cons p rest ih =>
    simp only [List.flatMap_cons, List.length_append, bucketsBmCount, List.map_cons,
      List.sum_cons] at *
    omega

theorem collect_eq_foldl (cs : List Node) :
    collect_flat_buckets cs = (allEvents cs).foldl stepBucket seedBuckets := by
  simp only [collect_flat_buckets, allEvents, List.foldl_cons, walkList_eq_foldl, seedBuckets]
  rfl

theorem collect_count (cs : List Node) :
    bucketsBmCount (collect_flat_buckets cs) = (bmsForest cs).length := by
  rw [collect_eq_foldl, foldl_step_count _ _ (by simp [seedBuckets]),
    bmsForest_event_count cs]
  simp [seedBuckets, bucketsBmCount, allEvents]

theorem keepFirstsAux_mem (l : List Bm) (seen : List String) (b : Bm)
    (h : b ∈ (keepFirstsAux l seen).1) : normalize_url b.href ≠ "" := by
  induction l generalizing seen with
  | nil => simp [keepFirstsAux] at h
  | cons b0 rest ih =>
    simp only [keepFirstsAux] at h
    by_cases h0 : normalize_url b0.href ≠ "" ∧ normalize_url b0.href ∉ seen
    · rw [if_pos h0] at h
      simp only [List.mem_cons] at h
      rcases h with h | h
      · rw [h]; exact h0.1
      · exact ih _ h
    · rw [if_neg h0] at h
      exact ih _ h

theorem string_mk_eq_empty_iff (l : List Char) : String.mk l = "" ↔ l = [] := by
  constructor
  · intro h
    have := congrArg String.data h
    simpa using this
  · intro h
    rw [h]

theorem normalizeList_eq_nil_iff (l : List Char) : normalizeList l = [] ↔ l = [] := by
  constructor
  · intro h
    unfold normalizeList at h
    cases hsplit : urlsplitM l with
    | error e => rw [hsplit] at h; exact h
    | ok s =>
      rw [hsplit] at h
      dsimp only at h
      split at h
      · exact h
      · exact absurd h (by assumption)
  · intro h
    subst h
    rfl

/-! ## Claim theorems: tree engines -/

/-- C1: the prune engine traverses children in deterministic document order;
among all bookmarks whose hrefs normalise to the same nonempty key, exactly
the first in document order survives with its own title and attributes,
every later one is dropped and counted in `urls_removed`, regardless of
folder boundaries (the surviving sequence equals the document-order
first-occurrence filter of all bookmarks). -/
theorem prune_firstOccurrenceWins (name : String) (attrs : List (String × String))
    (children : List Node) :
    (∃ cs', (prune_and_dedupe name attrs children).1 = Node.folder name attrs cs' ∧
        bmsForest cs' = keepFirsts (bmsForest children) []) ∧
    (prune_and_dedupe name attrs children).2.urls_kept
        = (keepFirsts (bmsForest children) []).length ∧
    (prune_and_dedupe name attrs children).2.urls_removed
          + (keepFirsts (bmsForest children) []).length
        = (bmsForest children).length := by
  obtain ⟨e1, e2, e3, e4, e5, e6⟩ := pruneListM_spec children [] {}
  refine ⟨⟨_, rfl, e1⟩, ?_, ?_⟩
  · simpa [keepFirsts] using e3
  · simpa [keepFirsts] using e4

/-- C3: after the dedupe pass, every folder remaining anywhere below the
root has at least one child; the number of dropped folders accounts exactly
for the difference in folder counts; each bookmark is counted exactly once
in `urls_kept` or `urls_removed` (so pruned folders add nothing); and the
root folder itself is always returned, even when its children all
disappear. -/
theorem prune_structuralPruning (name : String) (attrs : List (String × String))
    (children : List Node) :
    (∃ cs', (prune_and_dedupe name attrs children).1 = Node.folder name attrs cs' ∧
        noEmptyFolders cs' = true ∧
        bmsForest cs' = keepFirsts (bmsForest children) [] ∧
        (prune_and_dedupe name attrs children).2.folders_pruned + countFoldersF cs'
          = countFoldersF children) ∧
    (prune_and_dedupe name attrs children).2.urls_kept
        + (prune_and_dedupe name attrs children).2.urls_removed
      = (bmsForest children).length := by
  obtain ⟨e1, e2, e3, e4, e5, e6⟩ := pruneListM_spec children [] {}
  refine ⟨⟨_, rfl, e6, e1, by simpa using e5⟩, ?_⟩
  have h3 : (prune_and_dedupe name attrs children).2.urls_kept
      = (keepFirstsAux (bmsForest children) []).1.length := by simpa using e3
  have h4 : (prune_and_dedupe name attrs children).2.urls_removed
        + (keepFirstsAux (bmsForest children) []).1.length
      = (bmsForest children).length := by simpa using e4
  omega

/-- C2 (amended): in flatten mode the survivor of each nonempty key is the
first bookmark in the engine's processing order, which runs through buckets
in first-discovery order and within each bucket in append order (not plain
document order); every later bookmark with the same key is removed, and each
survivor stays in its own bucket (keys, display names and attributes are
untouched, and each bucket keeps a subsequence of its bookmarks). -/
theorem flatten_dedupe_processing_order (cs : List Node) :
    ((dedupe_bookmarks_globally (collect_flat_buckets cs)).1.flatMap fun p => p.2.bookmarks)
        = keepFirsts ((collect_flat_buckets cs).flatMap fun p => p.2.bookmarks) [] ∧
    List.Forall₂ bucketShrinks (dedupe_bookmarks_globally (collect_flat_buckets cs)).1
      (collect_flat_buckets cs) := by
  obtain ⟨e1, e2, e3, e4⟩ := dedupeBucketsGo_spec (collect_flat_buckets cs) [] {}
  exact ⟨e1, e2⟩

/-- C2 counterexample: with folders `A`(empty), `B`(bookmark of url X),
`A`(bookmark of url X again), the copy under `B` comes first in document
order, yet the code keeps the later copy (bucket `a` was discovered first)
and removes the one under `B`. -/
theorem flatten_dedupe_not_document_order :
    (bucketsFind (dedupe_bookmarks_globally (collect_flat_buckets
        [Node.folder "A" [] [],
         Node.folder "B" [] [Node.bm ⟨"x", "inB", []⟩],
         Node.folder "A" [] [Node.bm ⟨"x", "inA2", []⟩]])).1 "b"
      = some ⟨"B", [], []⟩) ∧
    (bucketsFind (dedupe_bookmarks_globally (collect_flat_buckets
        [Node.folder "A" [] [],
         Node.folder "B" [] [Node.bm ⟨"x", "inB", []⟩],
         Node.folder "A" [] [Node.bm ⟨"x", "inA2", []⟩]])).1 "a"
      = some ⟨"A", [⟨"x", "inA2", []⟩], []⟩) := by
  have hc : collect_flat_buckets
      [Node.folder "A" [] [],
       Node.folder "B" [] [Node.bm ⟨"x", "inB", []⟩],
       Node.folder "A" [] [Node.bm ⟨"x", "inA2", []⟩]] =
      [(unsortedKey, ⟨"Unsorted", [], []⟩),
       ("a", ⟨"A", [⟨"x", "inA2", []⟩], []⟩),
       ("b", ⟨"B", [⟨"x", "inB", []⟩], []⟩)] := by
    rw [collect_eq_foldl]
    simp only [allEvents, eventsOf, List.append_nil, List.nil_append, List.cons_append]
    rfl
  rw [hc]
  constructor <;> rfl

/-- C4 (amended): buckets are keyed by normalised folder name, so any two
folders anywhere in the tree with equal normalised names merge into one
bucket; that bucket's display name is the first-discovered folder's name,
its bookmarks are the direct bookmarks of all its folders in discovery
order, and its stored attributes are the attributes of the first folder in
discovery order whose attributes are nonempty (not necessarily the
first-discovered folder's). -/
theorem flatten_bucket_merging (cs : List Node) (k : String) :
    bucketsFind (collect_flat_buckets cs) k = expectedBucket k (allEvents cs) := by
  rw [collect_eq_foldl, foldl_step_find]
  by_cases hk : k = unsortedKey
  · subst hk
    rw [show bucketsFind seedBuckets unsortedKey
        = some ⟨"Unsorted", [], []⟩ from rfl]
    simp [expectedBucket]
  · have hfind : bucketsFind seedBuckets k = none := by
      simp only [seedBuckets, bucketsFind]
      rw [if_neg (fun e => hk e.symm)]
    rw [hfind, expectedBucket, if_neg hk]

/-- C4 counterexample: folder `Work` with no attributes is discovered first,
folder `WORK` carrying `ADD_DATE` second; the merged bucket keeps the later
folder's attributes, not the first-discovered (empty) ones claimed. -/
theorem flatten_bucket_attrs_not_first_seen :
    (bucketsFind (collect_flat_buckets
        [Node.folder "Work" [] [],
         Node.folder "WORK" [("ADD_DATE", "1")] []]) "work").map (fun b => b.h3_attrs)
      = some [("ADD_DATE", "1")] ∧
    (bucketsFind (collect_flat_buckets
        [Node.folder "Work" [] [],
         Node.folder "WORK" [("ADD_DATE", "1")] []]) "work").map (fun b => b.display_name)
      = some "Work" := by
  have hc : collect_flat_buckets
      [Node.folder "Work" [] [],
       Node.folder "WORK" [("ADD_DATE", "1")] []] =
      [(unsortedKey, ⟨"Unsorted", [], []⟩),
       ("work", ⟨"Work", [], [("ADD_DATE", "1")]⟩)] := by
    rw [collect_eq_foldl]
    simp only [allEvents, eventsOf, List.append_nil, List.nil_append, List.cons_append]
    rfl
  rw [hc]
  constructor <;> rfl

/-- C9: `normalize_url` returns the empty string exactly on the empty
string, every bookmark surviving either engine has a nonempty href, and a
bookmark with an empty href is dropped and counted as removed even when no
other bookmark shares its href. -/
theorem normalize_empty_key_iff :
    (∀ u : String, normalize_url u = "" ↔ u = "") ∧
    (∀ children : List Node,
      (bmsForest (pruneListM children [] {}).1).all (fun b => b.href != "") = true) ∧
    (∀ cs : List Node,
      (((dedupe_bookmarks_globally (collect_flat_buckets cs)).1.flatMap
          fun p => p.2.bookmarks).all (fun b => b.href != "")) = true) ∧
    (pruneListM [Node.bm ⟨"", "t", []⟩] [] {}).2.2.urls_removed = 1 ∧
    (pruneListM [Node.bm ⟨"", "t", []⟩] [] {}).2.2.urls_kept = 0 := by
  have hiff : ∀ u : String, normalize_url u = "" ↔ u = "" := by
    intro u
    constructor
    · intro h
      unfold normalize_url at h
      rw [string_mk_eq_empty_iff, normalizeList_eq_nil_iff] at h
      exact (string_mk_eq_empty_iff u.data).2 h
    · intro h
      subst h
      rfl
  have hall : ∀ (l : List Bm) (seen : List String),
      ((keepFirstsAux l seen).1.all (fun b => b.href != "")) = true := by
    intro l seen
    rw [List.all_eq_true]
    intro b hb
    have := keepFirstsAux_mem l seen b hb
    simp only [bne_iff_ne, ne_eq]
    intro he
    exact this (by rw [he]; exact (hiff "").2 rfl)
  refine ⟨hiff, ?_, ?_, rfl, rfl⟩
  · intro children
    obtain ⟨e1, _, _, _, _, _⟩ := pruneListM_spec children [] {}
    rw [e1]
    exact hall _ _
  · intro cs
    obtain ⟨e1, _, _, _⟩ := dedupeBucketsGo_spec (collect_flat_buckets cs) [] {}
    rw [show (dedupe_bookmarks_globally (collect_flat_buckets cs)).1
        = (dedupeBucketsGo (collect_flat_buckets cs) [] {}).1 from rfl, e1]
    exact hall _ _

/-- C10: in both engines every bookmark of the input tree is counted exactly
once, as kept or as removed: `urls_kept + urls_removed` equals the number of
bookmark nodes. -/
theorem stats_conservation (name : String) (attrs : List (String × String))
    (children : List Node) (cs : List Node) :
    (prune_and_dedupe name attrs children).2.urls_kept
        + (prune_and_dedupe name attrs children).2.urls_removed
      = (bmsForest children).length ∧
    (dedupe_bookmarks_globally (collect_flat_buckets cs)).2.urls_kept
        + (dedupe_bookmarks_globally (collect_flat_buckets cs)).2.urls_removed
      = (bmsForest cs).length := by
  constructor
  · obtain ⟨e1, e2, e3, e4, e5, e6⟩ := pruneListM_spec children [] {}
    have h3 := e3
    have h4 := e4
    dsimp only at h3 h4
    simp only [prune_and_dedupe]
    omega
  · obtain ⟨e1, e2, e3, e4⟩ := dedupeBucketsGo_spec (collect_flat_buckets cs) [] {}
    dsimp only at e3 e4
    have hc : ((collect_flat_buckets cs).flatMap fun p => p.2.bookmarks).length
        = (bmsForest cs).length := by
      rw [flatMap_bookmarks_length, collect_count]
    rw [show dedupe_bookmarks_globally (collect_flat_buckets cs)
        = dedupeBucketsGo (collect_flat_buckets cs) [] {} from rfl]
    omega

/-! ## Claim theorems: URL normalisation -/

theorem dropWhile_head_not (p : Char → Bool) (w : List Char) :
    w.dropWhile p = [] ∨ ∃ c rest, w.dropWhile p = c :: rest ∧ p c = false := by
  induction w with
  | nil => exact Or.inl rfl
  | cons a l ih =>
    by_cases h : p a = true
    · simpa [List.dropWhile_cons, h] using ih
    · have hf : p a = false := by simpa using h
      right
      exact ⟨a, l, by simp [List.dropWhile_cons, hf], hf⟩

theorem rstripSlashes_no_trailing (p : List Char) :
    rstripSlashes p = [] ∨ endsWithSlash (rstripSlashes p) = false := by
  unfold rstripSlashes
  rcases dropWhile_head_not (fun c => c = '/') p.reverse with h | ⟨c, rest, h, hc⟩
  · left
    rw [h]
    rfl
  · right
    rw [h]
    unfold endsWithSlash
    rw [List.getLast?_reverse]
    simp only [List.head?_cons]
    simpa using hc

/-- C8: `normalize_url` never propagates a parse error: whenever the
modelled `urlsplit` raises (returns `Except.error`), the original input is
returned unchanged, so processing always continues. -/
theorem normalize_error_fallback (u : String) (h : urlsplitM u.data = Except.error ()) :
    normalize_url u = u := by
  unfold normalize_url normalizeList
  rw [h]

/-- C8 witness: `http://[` (unbalanced bracket netloc) takes the error path
and comes back unchanged. -/
theorem normalize_error_fallback_witness :
    urlsplitM ("http://[".data) = Except.error () ∧ normalize_url "http://[" = "http://[" :=
  ⟨rfl, normalize_error_fallback "http://[" rfl⟩

/-- C5 counterexample: on the path `/a//` the code removes both trailing
slashes (`rstrip("/")`), so the result is `http://ex.com/a`, not the
`http://ex.com/a/` that stripping a single slash would give. -/
theorem strip_single_slash_cex :
    normalize_url "http://ex.com/a//" = "http://ex.com/a" ∧
    normalize_url "http://ex.com/a//" ≠ "http://ex.com/a/" := by
  refine ⟨rfl, ?_⟩
  intro h
  rw [show normalize_url "http://ex.com/a//" = "http://ex.com/a" from rfl] at h
  exact absurd h (by decide)

/-- C5 (amended): whenever the parsed path ends with `/` and is not exactly
`/`, the path step removes ALL trailing slashes (none remains), while a path
of exactly `/` is untouched; `http://ex.com/a/` and `http://ex.com/a//`
both normalize to `http://ex.com/a`, and `http://ex.com/` is unchanged. -/
theorem strip_all_trailing_slashes :
    (∀ (u : List Char) (s : USplit), urlsplitM u = Except.ok s →
      endsWithSlash s.path = true → s.path ≠ ['/'] →
      canonPath s.path = rstripSlashes s.path ∧
        (rstripSlashes s.path = [] ∨ endsWithSlash (rstripSlashes s.path) = false)) ∧
    canonPath ['/'] = ['/'] ∧
    normalize_url "http://ex.com/a/" = "http://ex.com/a" ∧
    normalize_url "http://ex.com/a//" = "http://ex.com/a" ∧
    normalize_url "http://ex.com/" = "http://ex.com/" := by
  refine ⟨?_, rfl, rfl, rfl, rfl⟩
  intro u s _ hend hne
  constructor
  · unfold canonPath
    rw [if_pos]
    simp [hend, hne]
  · exact rstripSlashes_no_trailing s.path

/-- C5 amended witness at `http://ex.com/a/`. -/
theorem strip_all_trailing_slashes_witness :
    canonPath ("/a/".data) = rstripSlashes ("/a/".data) ∧
      (rstripSlashes ("/a/".data) = [] ∨ endsWithSlash (rstripSlashes ("/a/".data)) = false) :=
  strip_all_trailing_slashes.1 ("http://ex.com/a/".data)
    ⟨"http".data, "ex.com".data, "/a/".data, [], []⟩ rfl (by decide) (by decide)

/-- C6 counterexample: `http://ex.com//` and `http://ex.com/` differ only in
one trailing slash, yet their keys differ: the first normalizes to
`http://ex.com` (both slashes stripped) and the second stays
`http://ex.com/` (path exactly `/` is preserved). -/
theorem normalization_equivalence_cex :
    normalize_url "http://ex.com//" = "http://ex.com" ∧
    normalize_url "http://ex.com/" = "http://ex.com/" ∧
    normalize_url "http://ex.com//" ≠ normalize_url "http://ex.com/" := by
  refine ⟨rfl, rfl, ?_⟩
  intro h
  rw [show normalize_url "http://ex.com//" = "http://ex.com" from rfl,
    show normalize_url "http://ex.com/" = "http://ex.com/" from rfl] at h
  exact absurd h (by decide)

/-- C6 (amended): two URLs receive the same key whenever they parse into
components with schemes equal up to case, netlocs equal up to case, paths
equal after the all-trailing-slash strip, identical tracking-filtered query
pair lists and arbitrary fragments — provided the reassembled key is
nonempty (when it is empty each URL falls back to itself verbatim).  In
particular `http://EX.com/a/?utm_source=x` and `http://ex.com/a` normalize
identically. -/
theorem normalization_equivalence (u1 u2 : String) (s1 s2 : USplit)
    (h1 : urlsplitM u1.data = Except.ok s1) (h2 : urlsplitM u2.data = Except.ok s2)
    (hs : lowerStr s1.scheme = lowerStr s2.scheme)
    (hn : lowerStr s1.netloc = lowerStr s2.netloc)
    (hp : canonPath s1.path = canonPath s2.path)
    (hq : filterTracking (parseQsl s1.query) = filterTracking (parseQsl s2.query))
    (hne : urlunsplitM (lowerStr s1.scheme) (lowerStr s1.netloc) (canonPath s1.path)
        (urlencodeM (filterTracking (parseQsl s1.query))) [] ≠ []) :
    normalize_url u1 = normalize_url u2 := by
  unfold normalize_url normalizeList
  rw [h1, h2]
  dsimp only
  rw [← hs, ← hn, ← hp, ← hq]
  rw [if_neg hne, if_neg hne]

/-- C6 amended witness: the `EX.com` tracking-parameter instance. -/
theorem normalization_equivalence_witness :
    normalize_url "http://EX.com/a/?utm_source=x" = normalize_url "http://ex.com/a" :=
  normalization_equivalence "http://EX.com/a/?utm_source=x" "http://ex.com/a"
    ⟨"http".data, "EX.com".data, "/a/".data, "utm_source=x".data, []⟩
    ⟨"http".data, "ex.com".data, "/a".data, [], []⟩
    rfl rfl rfl rfl rfl rfl (by decide)

/-! ## Lemmas towards idempotence: splitting utilities -/

theorem splitFirst_eq_none (sep : Char) (l : List Char) (h : sep ∉ l) :
    splitFirst sep l = none := by
  induction l with
  | nil => rfl
  | cons c cs ih =>
    simp only [List.mem_cons, not_or] at h
    have hne : ¬(c = sep) := fun e => h.1 e.symm
    simp only [splitFirst, if_neg hne, ih h.2, Option.map_none']

theorem splitFirst_append_of_not_mem (sep : Char) (l1 l2 : List Char) (h : sep ∉ l1) :
    splitFirst sep (l1 ++ l2) = (splitFirst sep l2).map (fun p => (l1 ++ p.1, p.2)) := by
  induction l1 with
  | nil =>
    simp only [List.nil_append, List.nil_append]
    cases splitFirst sep l2 <;> simp
  | cons c cs ih =>
    simp only [List.mem_cons, not_or] at h
    have hne : ¬(c = sep) := fun e => h.1 e.symm
    simp only [List.cons_append, splitFirst, if_neg hne, List.append_eq]
    rw [ih h.2]
    cases splitFirst sep l2 <;> rfl

theorem splitFirst_append_sep (sep : Char) (l1 l2 : List Char) (h : sep ∉ l1) :
    splitFirst sep (l1 ++ sep :: l2) = some (l1, l2) := by
  rw [splitFirst_append_of_not_mem sep l1 _ h]
  simp [splitFirst]

theorem splitFirst_decomp (sep : Char) (l a b : List Char)
    (h : splitFirst sep l = some (a, b)) : l = a ++ sep :: b ∧ sep ∉ a := by
  induction l generalizing a b with
  | nil => simp [splitFirst] at h
  | cons c cs ih =>
    simp only [splitFirst] at h
    by_cases hc : c = sep
    · rw [if_pos hc] at h
      cases h
      exact ⟨by rw [hc]; rfl, by simp⟩
    · rw [if_neg hc] at h
      cases hs : splitFirst sep cs with
      | none => rw [hs] at h; cases h
      | some p =>
        obtain ⟨p1, p2⟩ := p
        rw [hs] at h
        simp only [Option.map_some', Option.some_inj, Prod.mk.injEq] at h
        obtain ⟨ha, hb⟩ := h
        obtain ⟨ih1, ih2⟩ := ih p1 p2 hs
        subst hb
        refine ⟨?_, ?_⟩
        · rw [← ha, List.cons_append, ← ih1]
        · rw [← ha]
          simp only [List.mem_cons, not_or]
          exact ⟨fun e => hc e.symm, ih2⟩

theorem takeWhile_append_all (p : Char → Bool) (l1 l2 : List Char) (h : l1.all p) :
    (l1 ++ l2).takeWhile p = l1 ++ l2.takeWhile p := by
  induction l1 with
  | nil => simp
  | cons c cs ih =>
    simp only [List.all_cons, Bool.and_eq_true] at h
    simp [List.takeWhile_cons, h.1, ih h.2]

theorem dropWhile_append_all (p : Char → Bool) (l1 l2 : List Char) (h : l1.all p) :
    (l1 ++ l2).dropWhile p = l2.dropWhile p := by
  induction l1 with
  | nil => simp
  | cons c cs ih =>
    simp only [List.all_cons, Bool.and_eq_true] at h
    simp [List.dropWhile_cons, h.1, ih h.2]

theorem splitAllAux_no_sep (sep : Char) (l acc : List Char) (h : sep ∉ l) :
    splitAllAux sep l acc = [acc.reverse ++ l] := by
  induction l generalizing acc with
  | nil => simp [splitAllAux]
  | cons c cs ih =>
    simp only [List.mem_cons, not_or] at h
    have hne : ¬(c = sep) := fun e => h.1 e.symm
    simp only [splitAllAux, if_neg hne, ih _ h.2]
    simp

theorem splitAllAux_append_sep (sep : Char) (l1 l2 acc : List Char) (h : sep ∉ l1) :
    splitAllAux sep (l1 ++ sep :: l2) acc = (acc.reverse ++ l1) :: splitAllAux sep l2 [] := by
  induction l1 generalizing acc with
  | nil => simp [splitAllAux]
  | cons c cs ih =>
    simp only [List.mem_cons, not_or] at h
    have hne : ¬(c = sep) := fun e => h.1 e.symm
    simp only [List.cons_append, splitAllAux, if_neg hne, List.append_eq]
    rw [ih (c :: acc) h.2]
    simp

/-! ## Lemmas towards idempotence: the lowercase map -/

theorem charToNat_ofNat (n : Nat) (h : Nat.isValidChar n) : (Char.ofNat n).toNat = n := by
  unfold Char.ofNat
  rw [dif_pos h]
  exact BitVec.toNat_ofNatLt _ _

theorem charEq_iff_toNat (c d : Char) : c = d ↔ c.toNat = d.toNat := by
  constructor
  · intro h; rw [h]
  · intro h
    apply Char.eq_of_val_eq
    apply UInt32.eq_of_toBitVec_eq
    exact BitVec.eq_of_toNat_eq h

theorem isAsciiUpperCh_iff (c : Char) :
    isAsciiUpperCh c = true ↔ 65 ≤ c.toNat ∧ c.toNat ≤ 90 := by
  unfold isAsciiUpperCh
  simp only [Bool.and_eq_true, decide_eq_true_eq]
  exact Iff.rfl

/-- Case split for the lowercase map: either the character is untouched, or
its code moves up by 32 from one of the two uppercase ranges. -/
theorem lowerPy_spec (c : Char) :
    (lowerPy c = c ∧ ¬((65 ≤ c.toNat ∧ c.toNat ≤ 90) ∨
        (0xC0 ≤ c.toNat ∧ c.toNat ≤ 0xDE ∧ c.toNat ≠ 0xD7))) ∨
    ((lowerPy c).toNat = c.toNat + 32 ∧ ((65 ≤ c.toNat ∧ c.toNat ≤ 90) ∨
        (0xC0 ≤ c.toNat ∧ c.toNat ≤ 0xDE ∧ c.toNat ≠ 0xD7))) := by
  unfold lowerPy
  by_cases h1 : isAsciiUpperCh c = true
  · right
    have hr := (isAsciiUpperCh_iff c).1 h1
    rw [if_pos h1]
    exact ⟨charToNat_ofNat _ (Or.inl (by omega)), Or.inl hr⟩
  · rw [if_neg h1]
    by_cases h2 : (0xC0 ≤ c.toNat && c.toNat ≤ 0xDE && c.toNat ≠ 0xD7) = true
    · right
      rw [if_pos h2]
      simp only [Bool.and_eq_true, decide_eq_true_eq] at h2
      exact ⟨charToNat_ofNat _ (Or.inl (by omega)), Or.inr ⟨h2.1.1, h2.1.2, h2.2⟩⟩
    · left
      rw [if_neg h2]
      refine ⟨rfl, ?_⟩
      rintro (hr | hr)
      · exact h1 ((isAsciiUpperCh_iff c).2 hr)
      · refine h2 ?_
        simp only [Bool.and_eq_true, decide_eq_true_eq]
        exact ⟨⟨hr.1, hr.2.1⟩, hr.2.2⟩

theorem lowerPy_idem (c : Char) : lowerPy (lowerPy c) = lowerPy c := by
  rcases lowerPy_spec c with ⟨h, _⟩ | ⟨h, hr⟩
  · rw [h, h]
  · rcases lowerPy_spec (lowerPy c) with ⟨h2, _⟩ | ⟨_, hr2⟩
    · exact h2
    · rw [h] at hr2
      omega

theorem lowerStr_idem (l : List Char) : lowerStr (lowerStr l) = lowerStr l := by
  unfold lowerStr
  rw [List.map_map]
  exact List.map_congr_left (fun c _ => lowerPy_idem c)

theorem lowerPy_eq_iff_of_inert (c d : Char)
    (hd : ¬((65 ≤ d.toNat ∧ d.toNat ≤ 90) ∨ (0xC0 ≤ d.toNat ∧ d.toNat ≤ 0xDE ∧ d.toNat ≠ 0xD7)))
    (hd2 : ¬((97 ≤ d.toNat ∧ d.toNat ≤ 122) ∨ (0xE0 ≤ d.toNat ∧ d.toNat ≤ 0xFE ∧ d.toNat ≠ 0xF7))) :
    lowerPy c = d ↔ c = d := by
  constructor
  · intro h
    rcases lowerPy_spec c with ⟨h1, _⟩ | ⟨h1, hr⟩
    · rw [← h1]; exact h
    · exfalso
      rw [h] at h1
      omega
  · intro h
    rw [h]
    rcases lowerPy_spec d with ⟨h1, _⟩ | ⟨_, hr⟩
    · exact h1
    · exact absurd hr hd

theorem lowerPy_ne_char (c d : Char)
    (hd : ¬((65 ≤ d.toNat ∧ d.toNat ≤ 90) ∨ (0xC0 ≤ d.toNat ∧ d.toNat ≤ 0xDE ∧ d.toNat ≠ 0xD7)))
    (hd2 : ¬((97 ≤ d.toNat ∧ d.toNat ≤ 122) ∨ (0xE0 ≤ d.toNat ∧ d.toNat ≤ 0xFE ∧ d.toNat ≠ 0xF7)))
    (hc : c ≠ d) : lowerPy c ≠ d :=
  fun h => hc ((lowerPy_eq_iff_of_inert c d hd hd2).1 h)

/-! ## Lemmas towards idempotence: UTF-8 and percent round trips -/

theorem charLe_iff (c d : Char) : c ≤ d ↔ c.toNat ≤ d.toNat := Iff.rfl

theorem utf8Decode_one (n : Nat) (h : n < 0x80) (rest : List Nat) :
    utf8DecodeReplace (n :: rest) = Char.ofNat n :: utf8DecodeReplace rest := by
  conv_lhs => rw [utf8DecodeReplace.eq_def]
  dsimp only
  rw [if_pos h]

theorem utf8Decode_two (n : Nat) (h1 : 0x80 ≤ n) (h2 : n < 0x800) (rest : List Nat) :
    utf8DecodeReplace ((0xC0 + n / 64) :: (0x80 + n % 64) :: rest)
      = Char.ofNat n :: utf8DecodeReplace rest := by
  conv_lhs => rw [utf8DecodeReplace.eq_def]
  dsimp only
  rw [if_neg (by omega), if_neg (by omega), if_pos (by omega)]
  have hc : isContB (0x80 + n % 64) = true := by
    unfold isContB
    simp only [Bool.and_eq_true, decide_eq_true_eq]
    omega
  rw [if_pos hc]
  have hval : (0xC0 + n / 64 - 0xC0) * 64 + (0x80 + n % 64 - 0x80) = n := by omega
  rw [hval]

theorem utf8Decode_three (n : Nat) (h1 : 0x800 ≤ n) (h2 : n < 0x10000)
    (h3 : n < 0xD800 ∨ 0xDFFF < n) (rest : List Nat) :
    utf8DecodeReplace ((0xE0 + n / 4096) :: (0x80 + n / 64 % 64) :: (0x80 + n % 64) :: rest)
      = Char.ofNat n :: utf8DecodeReplace rest := by
  conv_lhs => rw [utf8DecodeReplace.eq_def]
  dsimp only
  rw [if_neg (by omega), if_neg (by omega), if_neg (by omega), if_pos (by omega)]
  have hc2 : isCont3 (0xE0 + n / 4096) (0x80 + n / 64 % 64) = true := by
    unfold isCont3
    by_cases hl : 0xE0 + n / 4096 = 0xE0
    · rw [if_pos hl]
      simp only [Bool.and_eq_true, decide_eq_true_eq]
      omega
    · rw [if_neg hl]
      by_cases hl2 : 0xE0 + n / 4096 = 0xED
      · rw [if_pos hl2]
        simp only [Bool.and_eq_true, decide_eq_true_eq]
        omega
      · rw [if_neg hl2]
        unfold isContB
        simp only [Bool.and_eq_true, decide_eq_true_eq]
        omega
  have hc3 : isContB (0x80 + n % 64) = true := by
    unfold isContB
    simp only [Bool.and_eq_true, decide_eq_true_eq]
    omega
  rw [if_pos hc2]
  rw [if_pos hc3]
  have hval : (0xE0 + n / 4096 - 0xE0) * 4096 + (0x80 + n / 64 % 64 - 0x80) * 64 +
      (0x80 + n % 64 - 0x80) = n := by omega
  rw [hval]

theorem utf8Decode_four (n : Nat) (h1 : 0x10000 ≤ n) (h2 : n < 0x110000) (rest : List Nat) :
    utf8DecodeReplace ((0xF0 + n / 262144) :: (0x80 + n / 4096 % 64) ::
        (0x80 + n / 64 % 64) :: (0x80 + n % 64) :: rest)
      = Char.ofNat n :: utf8DecodeReplace rest := by
  conv_lhs => rw [utf8DecodeReplace.eq_def]
  dsimp only
  rw [if_neg (by omega), if_neg (by omega), if_neg (by omega), if_neg (by omega),
    if_pos (by omega)]
  have hc2 : isCont4 (0xF0 + n / 262144) (0x80 + n / 4096 % 64) = true := by
    unfold isCont4
    by_cases hl : 0xF0 + n / 262144 = 0xF0
    · rw [if_pos hl]
      simp only [Bool.and_eq_true, decide_eq_true_eq]
      omega
    · rw [if_neg hl]
      by_cases hl2 : 0xF0 + n / 262144 = 0xF4
      · rw [if_pos hl2]
        simp only [Bool.and_eq_true, decide_eq_true_eq]
        omega
      · rw [if_neg hl2]
        unfold isContB
        simp only [Bool.and_eq_true, decide_eq_true_eq]
        omega
  have hc3 : isContB (0x80 + n / 64 % 64) = true := by
    unfold isContB
    simp only [Bool.and_eq_true, decide_eq_true_eq]
    omega
  have hc4 : isContB (0x80 + n % 64) = true := by
    unfold isContB
    simp only [Bool.and_eq_true, decide_eq_true_eq]
    omega
  rw [if_pos hc2]
  rw [if_pos hc3]
  rw [if_pos hc4]
  have hval : (0xF0 + n / 262144 - 0xF0) * 262144 + (0x80 + n / 4096 % 64 - 0x80) * 4096 +
      (0x80 + n / 64 % 64 - 0x80) * 64 + (0x80 + n % 64 - 0x80) = n := by omega
  rw [hval]

/-- Decoding an encoded scalar value recovers the character. -/
theorem utf8Decode_encode (c : Char) (rest : List Nat) :
    utf8DecodeReplace (utf8EncodeNat c.toNat ++ rest) = c :: utf8DecodeReplace rest := by
  have hv : Nat.isValidChar c.toNat := c.valid
  have hofn : Char.ofNat c.toNat = c := by
    rw [charEq_iff_toNat, charToNat_ofNat _ hv]
  unfold Nat.isValidChar at hv
  unfold utf8EncodeNat
  by_cases h1 : c.toNat < 0x80
  · rw [if_pos h1]
    simp only [List.cons_append, List.nil_append]
    rw [utf8Decode_one c.toNat h1 rest, hofn]
  · rw [if_neg h1]
    by_cases h2 : c.toNat < 0x800
    · rw [if_pos h2]
      simp only [List.cons_append, List.nil_append]
      rw [utf8Decode_two c.toNat (by omega) h2 rest, hofn]
    · rw [if_neg h2]
      by_cases h3 : c.toNat < 0x10000
      · rw [if_pos h3]
        have hs : c.toNat < 0xD800 ∨ 0xDFFF < c.toNat := by
          rcases hv with h | h
          · exact Or.inl h
          · exact Or.inr (by omega)
        simp only [List.cons_append, List.nil_append]
        rw [utf8Decode_three c.toNat (by omega) h3 hs rest, hofn]
      · rw [if_neg h3]
        have hlt : c.toNat < 0x110000 := by
          rcases hv with h | h
          · omega
          · omega
        simp only [List.cons_append, List.nil_append]
        rw [utf8Decode_four c.toNat (by omega) hlt rest, hofn]

theorem utf8Decode_encode_flat (l : List Char) :
    utf8DecodeReplace (l.flatMap (fun c => utf8EncodeNat c.toNat)) = l := by
  induction l with
  | nil => rfl
  | cons c cs ih =>
    rw [List.flatMap_cons, utf8Decode_encode, ih]

theorem utf8EncodeNat_bytes_lt (n : Nat) (h : n < 0x110000) :
    (utf8EncodeNat n).all (fun b => b < 256) = true := by
  unfold utf8EncodeNat
  by_cases h1 : n < 0x80
  · rw [if_pos h1]; simp; omega
  · rw [if_neg h1]
    by_cases h2 : n < 0x800
    · rw [if_pos h2]; simp; omega
    · rw [if_neg h2]
      by_cases h3 : n < 0x10000
      · rw [if_pos h3]; simp; omega
      · rw [if_neg h3]; simp; omega

theorem hexVal_pctHexDigit (n : Nat) (h : n < 16) : hexVal? (pctHexDigit n) = some n := by
  have e0 : ('0').toNat = 48 := rfl
  have e9 : ('9').toNat = 57 := rfl
  have eA : ('A').toNat = 65 := rfl
  have eF : ('F').toNat = 70 := rfl
  unfold pctHexDigit hexVal?
  by_cases h10 : n < 10
  · rw [if_pos h10]
    have h48 : (Char.ofNat (48 + n)).toNat = 48 + n := charToNat_ofNat _ (Or.inl (by omega))
    rw [if_pos]
    · rw [h48]
      simp only [Option.some.injEq]
      omega
    · simp only [Bool.and_eq_true, decide_eq_true_eq, charLe_iff, h48, e0, e9]
      omega
  · rw [if_neg h10]
    have h55 : (Char.ofNat (55 + n)).toNat = 55 + n := charToNat_ofNat _ (Or.inl (by omega))
    rw [if_neg, if_pos]
    · rw [h55]
      simp only [Option.some.injEq]
      omega
    · simp only [Bool.and_eq_true, decide_eq_true_eq, charLe_iff, h55, eA, eF]
      omega
    · simp only [Bool.and_eq_true, decide_eq_true_eq, charLe_iff, h55, e0, e9]
      omega

theorem pctBytes_pctEncByte (b : Nat) (h : b < 256) (rest : List Char) :
    pctBytes (pctEncByte b ++ rest) = b :: pctBytes rest := by
  unfold pctEncByte
  simp only [List.cons_append, List.nil_append]
  have step : pctBytes ('%' :: pctHexDigit (b / 16) :: pctHexDigit (b % 16) :: rest)
      = match hexVal? (pctHexDigit (b / 16)), hexVal? (pctHexDigit (b % 16)) with
        | some x, some y => (x * 16 + y) :: pctBytes rest
        | _, _ => 0x25 :: pctBytes (pctHexDigit (b / 16) :: pctHexDigit (b % 16) :: rest) := rfl
  rw [step, hexVal_pctHexDigit _ (by omega), hexVal_pctHexDigit _ (by omega)]
  dsimp only
  have hb : b / 16 * 16 + b % 16 = b := by omega
  rw [hb]

theorem pctBytes_cons_nonpct (c : Char) (h : c ≠ '%') (rest : List Char) :
    pctBytes (c :: rest) = c.toNat :: pctBytes rest := by
  conv_lhs => rw [pctBytes.eq_def]
  split
  all_goals rename_i heq
  · simp at heq
  · simp only [List.cons.injEq] at heq
    exact absurd heq.1 h
  · simp only [List.cons.injEq] at heq
    exact absurd heq.1 h
  · simp only [List.cons.injEq] at heq
    exact absurd heq.1 h
  · simp only [List.cons.injEq] at heq
    rw [heq.1, heq.2]

theorem char_toNat_lt (c : Char) : c.toNat < 0x110000 := by
  have hv : Nat.isValidChar c.toNat := c.valid
  unfold Nat.isValidChar at hv
  rcases hv with h | h
  · omega
  · omega

theorem alwaysSafe_toNat (c : Char) (h : alwaysSafe c = true) :
    (48 ≤ c.toNat ∧ c.toNat ≤ 57) ∨ (65 ≤ c.toNat ∧ c.toNat ≤ 90) ∨
      (97 ≤ c.toNat ∧ c.toNat ≤ 122) ∨ c.toNat = 95 ∨ c.toNat = 46 ∨
      c.toNat = 45 ∨ c.toNat = 126 := by
  have e1 : ('A').toNat = 65 := rfl
  have e2 : ('Z').toNat = 90 := rfl
  have e3 : ('a').toNat = 97 := rfl
  have e4 : ('z').toNat = 122 := rfl
  have e5 : ('0').toNat = 48 := rfl
  have e6 : ('9').toNat = 57 := rfl
  have e7 : ('_').toNat = 95 := rfl
  have e8 : ('.').toNat = 46 := rfl
  have e9 : ('-').toNat = 45 := rfl
  have e10 : ('~').toNat = 126 := rfl
  unfold alwaysSafe isAsciiAlnumCh isAsciiAlphaCh isAsciiUpperCh isAsciiLowerCh
    isAsciiDigitCh at h
  simp only [Bool.or_eq_true, Bool.and_eq_true, decide_eq_true_eq, charLe_iff,
    charEq_iff_toNat, e1, e2, e3, e4, e5, e6, e7, e8, e9, e10] at h
  omega

theorem pctHexDigit_range (n : Nat) (h : n < 16) :
    (48 ≤ (pctHexDigit n).toNat ∧ (pctHexDigit n).toNat ≤ 57) ∨
      (65 ≤ (pctHexDigit n).toNat ∧ (pctHexDigit n).toNat ≤ 70) := by
  unfold pctHexDigit
  by_cases h10 : n < 10
  · rw [if_pos h10, charToNat_ofNat _ (Or.inl (by omega))]
    left
    omega
  · rw [if_neg h10, charToNat_ofNat _ (Or.inl (by omega))]
    right
    omega

/-- Every character `quote_plus` emits is ASCII and is neither `&` nor `=`. -/
theorem quotePlus_mem_props (l : List Char) (ch : Char) (h : ch ∈ quotePlus l) :
    ch.toNat < 0x80 ∧ ch.toNat ≠ 38 ∧ ch.toNat ≠ 61 := by
  unfold quotePlus at h
  rw [List.mem_flatMap] at h
  obtain ⟨c, _, hch⟩ := h
  unfold quotePlusChar at hch
  by_cases hs : alwaysSafe c = true
  · rw [if_pos hs] at hch
    simp only [List.mem_singleton] at hch
    subst hch
    rcases alwaysSafe_toNat _ hs with h | h | h | h | h | h | h <;> omega
  · rw [if_neg hs] at hch
    by_cases hsp : c = ' '
    · rw [if_pos hsp] at hch
      simp only [List.mem_singleton] at hch
      subst hch
      refine ⟨by decide, by decide, by decide⟩
    · rw [if_neg hsp] at hch
      rw [List.mem_flatMap] at hch
      obtain ⟨b, hb, hch⟩ := hch
      have hb256 : b < 256 := by
        have hall := utf8EncodeNat_bytes_lt c.toNat (char_toNat_lt c)
        rw [List.all_eq_true] at hall
        have := hall b hb
        simpa using this
      unfold pctEncByte at hch
      simp only [List.mem_cons, List.not_mem_nil, or_false] at hch
      rcases hch with h1 | h2 | h3
      · subst h1
        refine ⟨by decide, by decide, by decide⟩
      · subst h2
        rcases pctHexDigit_range (b / 16) (by omega) with h | h <;> omega
      · subst h3
        rcases pctHexDigit_range (b % 16) (by omega) with h | h <;> omega

theorem plusToSpace_of_no_plus : ∀ (l : List Char), (∀ c ∈ l, c ≠ '+') → plusToSpace l = l := by
  intro l
  induction l with
  | nil => intro _; rfl
  | cons c cs ih =>
    intro h
    show (if c = '+' then ' ' else c) :: plusToSpace cs = c :: cs
    rw [if_neg (h c (List.mem_cons_self c cs)),
      ih (fun d hd => h d (List.mem_cons_of_mem c hd))]

theorem pctBytes_pctEncBytes_flat : ∀ (bs : List Nat), (∀ b ∈ bs, b < 256) →
    ∀ (t : List Char), pctBytes (bs.flatMap pctEncByte ++ t) = bs ++ pctBytes t := by
  intro bs
  induction bs with
  | nil =>
    intro _ t
    rw [List.flatMap_nil, List.nil_append, List.nil_append]
  | cons b bs ih =>
    intro h t
    rw [List.flatMap_cons, List.append_assoc,
      pctBytes_pctEncByte b (h b (List.mem_cons_self b bs)) _,
      ih (fun x hx => h x (List.mem_cons_of_mem b hx)) t, List.cons_append]

/-- `unquote_to_bytes` undoes one `quote_plus`-encoded character (after the
`+`-to-space replacement of `parse_qsl`). -/
theorem pctBytes_quotePlusChar (c : Char) (t : List Char) :
    pctBytes (plusToSpace (quotePlusChar c) ++ t) = utf8EncodeNat c.toNat ++ pctBytes t := by
  unfold quotePlusChar
  by_cases hs : alwaysSafe c = true
  · rw [if_pos hs]
    have hrange := alwaysSafe_toNat c hs
    have hplus : c ≠ '+' := by
      intro hc
      have hcn : c.toNat = 43 := by rw [hc]; decide
      rcases hrange with h | h | h | h | h | h | h <;> omega
    have hpct : c ≠ '%' := by
      intro hc
      have hcn : c.toNat = 37 := by rw [hc]; decide
      rcases hrange with h | h | h | h | h | h | h <;> omega
    show pctBytes ((if c = '+' then ' ' else c) :: t) = utf8EncodeNat c.toNat ++ pctBytes t
    rw [if_neg hplus, pctBytes_cons_nonpct c hpct t]
    have hasc : utf8EncodeNat c.toNat = [c.toNat] := by
      unfold utf8EncodeNat
      rw [if_pos]
      rcases hrange with h | h | h | h | h | h | h <;> omega
    rw [hasc, List.cons_append, List.nil_append]
  · rw [if_neg hs]
    by_cases hsp : c = ' '
    · subst hsp
      rw [if_pos rfl]
      show pctBytes (' ' :: t) = utf8EncodeNat (Char.toNat ' ') ++ pctBytes t
      rw [pctBytes_cons_nonpct _ (by decide) t]
      rfl
    · rw [if_neg hsp]
      have hnoplus : ∀ d ∈ (utf8EncodeNat c.toNat).flatMap pctEncByte, d ≠ '+' := by
        intro d hd
        rw [List.mem_flatMap] at hd
        obtain ⟨b, hb, hd⟩ := hd
        have hb256 : b < 256 := by
          have hall := utf8EncodeNat_bytes_lt c.toNat (char_toNat_lt c)
          rw [List.all_eq_true] at hall
          have := hall b hb
          simpa using this
        unfold pctEncByte at hd
        simp only [List.mem_cons, List.not_mem_nil, or_false] at hd
        intro hc
        have hcn : d.toNat = 43 := by rw [hc]; decide
        rcases hd with h1 | h2 | h3
        · rw [h1] at hcn
          exact absurd hcn (by decide)
        · rw [h2] at hcn
          rcases pctHexDigit_range (b / 16) (by omega) with h | h <;> omega
        · rw [h3] at hcn
          rcases pctHexDigit_range (b % 16) (by omega) with h | h <;> omega
      rw [plusToSpace_of_no_plus _ hnoplus]
      refine pctBytes_pctEncBytes_flat _ ?_ t
      intro b hb
      have hall := utf8EncodeNat_bytes_lt c.toNat (char_toNat_lt c)
      rw [List.all_eq_true] at hall
      have := hall b hb
      simpa using this

theorem pctBytes_plusToSpace_quotePlus (l : List Char) :
    pctBytes (plusToSpace (quotePlus l)) = l.flatMap (fun c => utf8EncodeNat c.toNat) := by
  induction l with
  | nil => rfl
  | cons c cs ih =>
    rw [show quotePlus (c :: cs) = quotePlusChar c ++ quotePlus cs from by
      unfold quotePlus; rw [List.flatMap_cons]]
    rw [show plusToSpace (quotePlusChar c ++ quotePlus cs)
        = plusToSpace (quotePlusChar c) ++ plusToSpace (quotePlus cs) from by
      unfold plusToSpace; rw [List.map_append]]
    rw [pctBytes_quotePlusChar c (plusToSpace (quotePlus cs))]
    rw [List.flatMap_cons, ih]

theorem unquoteGo_ascii : ∀ (u : List Char), (∀ c ∈ u, c.toNat < 0x80) →
    ∀ (acc : List Char), unquoteGo acc u = utf8DecodeReplace (pctBytes (acc.reverse ++ u)) := by
  intro u
  induction u with
  | nil =>
    intro _ acc
    unfold unquoteGo
    rw [List.append_nil]
  | cons c cs ih =>
    intro hu acc
    unfold unquoteGo
    rw [if_pos (hu c (List.mem_cons_self c cs))]
    rw [ih (fun d hd => hu d (List.mem_cons_of_mem c hd)) (c :: acc)]
    rw [List.reverse_cons, List.append_assoc, List.singleton_append]

theorem unquoteM_ascii (u : List Char) (hu : ∀ c ∈ u, c.toNat < 0x80) :
    unquoteM u = utf8DecodeReplace (pctBytes u) := by
  unfold unquoteM
  rw [unquoteGo_ascii u hu [], List.reverse_nil, List.nil_append]

/-- The `parse_qsl` value decoding undoes `quote_plus` exactly. -/
theorem unquote_plusToSpace_quotePlus (l : List Char) :
    unquoteM (plusToSpace (quotePlus l)) = l := by
  have hasc : ∀ ch ∈ plusToSpace (quotePlus l), ch.toNat < 0x80 := by
    intro ch hch
    unfold plusToSpace at hch
    rw [List.mem_map] at hch
    obtain ⟨d, hd, hch⟩ := hch
    subst hch
    by_cases hdp : d = '+'
    · rw [if_pos hdp]; decide
    · rw [if_neg hdp]
      exact (quotePlus_mem_props l d hd).1
  rw [unquoteM_ascii _ hasc, pctBytes_plusToSpace_quotePlus, utf8Decode_encode_flat]

theorem urlencodePair_ne_nil (p : List Char × List Char) : urlencodePair p ≠ [] := by
  unfold urlencodePair
  intro h
  rcases List.append_eq_nil.mp h with ⟨-, h2⟩
  exact List.cons_ne_nil _ _ h2

theorem amp_not_mem_urlencodePair (p : List Char × List Char) : '&' ∉ urlencodePair p := by
  unfold urlencodePair
  intro h
  rw [List.mem_append, List.mem_cons] at h
  rcases h with h | h | h
  · exact absurd rfl (by
      have := (quotePlus_mem_props p.1 '&' h).2.1
      rw [charEq_iff_toNat]
      intro hc
      exact this (by rw [← hc]; rfl))
  · exact absurd h (by decide)
  · exact absurd rfl (by
      have := (quotePlus_mem_props p.2 '&' h).2.1
      rw [charEq_iff_toNat]
      intro hc
      exact this (by rw [← hc]; rfl))

theorem parseQslPair_urlencodePair (p : List Char × List Char) :
    parseQslPair (urlencodePair p) = some p := by
  unfold parseQslPair
  rw [if_neg (urlencodePair_ne_nil p)]
  have hne : '=' ∉ quotePlus p.1 := by
    intro h
    have := (quotePlus_mem_props p.1 '=' h).2.2
    exact this rfl
  unfold urlencodePair
  rw [splitFirst_append_sep '=' _ _ hne]
  dsimp only
  rw [unquote_plusToSpace_quotePlus, unquote_plusToSpace_quotePlus]


theorem intercalate_amp_singleton (p : List Char) : List.intercalate ['&'] [p] = p := by
  unfold List.intercalate
  rw [List.intersperse_singleton]
  simp

theorem intercalate_amp_cons_cons (p q : List Char) (rest : List (List Char)) :
    List.intercalate ['&'] (p :: q :: rest) = p ++ '&' :: List.intercalate ['&'] (q :: rest) := by
  unfold List.intercalate
  rw [List.intersperse_cons_cons]
  rw [List.flatten_cons, List.flatten_cons]
  rw [List.singleton_append]

/-- `split("&")` undoes the `&`-join of `urlencode` when no piece holds `&`. -/
theorem splitAll_intercalate_amp : ∀ (pieces : List (List Char)) (p : List Char),
    (∀ q ∈ p :: pieces, '&' ∉ q) →
    splitAll '&' (List.intercalate ['&'] (p :: pieces)) = p :: pieces := by
  intro pieces
  induction pieces with
  | nil =>
    intro p h
    rw [intercalate_amp_singleton]
    unfold splitAll
    rw [splitAllAux_no_sep '&' p [] (h p (List.mem_cons_self p []))]
    rw [List.reverse_nil, List.nil_append]
  | cons q rest ih =>
    intro p h
    rw [intercalate_amp_cons_cons]
    unfold splitAll
    rw [splitAllAux_append_sep '&' p _ [] (h p (List.mem_cons_self _ _))]
    rw [List.reverse_nil, List.nil_append]
    congr 1
    exact ih q (fun r hr => h r (List.mem_cons_of_mem p hr))

theorem parseQsl_pieces (L : List (List Char × List Char)) :
    (L.map urlencodePair).filterMap parseQslPair = L := by
  induction L with
  | nil => rfl
  | cons p rest ih =>
    rw [List.map_cons]
    simp only [List.filterMap_cons, parseQslPair_urlencodePair]
    rw [ih]

/-- Full query-string round trip: `parse_qsl(urlencode(L), keep_blank_values=True)`
recovers `L` exactly, for every list of pairs of strings. -/
theorem parseQsl_urlencodeM (L : List (List Char × List Char)) :
    parseQsl (urlencodeM L) = L := by
  cases L with
  | nil => rfl
  | cons p rest =>
    unfold parseQsl urlencodeM
    rw [List.map_cons]
    have hne : List.intercalate ['&'] (urlencodePair p :: List.map urlencodePair rest) ≠ [] := by
      cases rest with
      | nil =>
        rw [List.map_nil, intercalate_amp_singleton]
        exact urlencodePair_ne_nil p
      | cons q rest2 =>
        rw [List.map_cons, intercalate_amp_cons_cons]
        intro hcon
        rcases List.append_eq_nil.mp hcon with ⟨h1, h2⟩
        exact List.cons_ne_nil _ _ h2
    rw [if_neg hne]
    rw [splitAll_intercalate_amp (List.map urlencodePair rest) (urlencodePair p) ?hamp]
    case hamp =>
      intro piece hp
      rw [← List.map_cons] at hp
      rw [List.mem_map] at hp
      obtain ⟨pr, _, hpe⟩ := hp
      rw [← hpe]
      exact amp_not_mem_urlencodePair pr
    rw [← List.map_cons, parseQsl_pieces]

/-! ## Lemmas towards idempotence: character classes and the clean step -/

theorem isAsciiAlphaCh_iff (c : Char) :
    isAsciiAlphaCh c = true ↔ (65 ≤ c.toNat ∧ c.toNat ≤ 90) ∨ (97 ≤ c.toNat ∧ c.toNat ≤ 122) := by
  unfold isAsciiAlphaCh isAsciiUpperCh isAsciiLowerCh
  simp only [Bool.or_eq_true, Bool.and_eq_true, decide_eq_true_eq, charLe_iff,
    show ('A').toNat = 65 from rfl, show ('Z').toNat = 90 from rfl,
    show ('a').toNat = 97 from rfl, show ('z').toNat = 122 from rfl]

theorem schemeChar_iff (c : Char) :
    schemeChar c = true ↔ ((48 ≤ c.toNat ∧ c.toNat ≤ 57) ∨ (65 ≤ c.toNat ∧ c.toNat ≤ 90) ∨
      (97 ≤ c.toNat ∧ c.toNat ≤ 122) ∨ c.toNat = 43 ∨ c.toNat = 45 ∨ c.toNat = 46) := by
  unfold schemeChar isAsciiAlnumCh isAsciiAlphaCh isAsciiUpperCh isAsciiLowerCh isAsciiDigitCh
  simp only [Bool.or_eq_true, Bool.and_eq_true, decide_eq_true_eq, charLe_iff,
    charEq_iff_toNat,
    show ('A').toNat = 65 from rfl, show ('Z').toNat = 90 from rfl,
    show ('a').toNat = 97 from rfl, show ('z').toNat = 122 from rfl,
    show ('0').toNat = 48 from rfl, show ('9').toNat = 57 from rfl,
    show ('+').toNat = 43 from rfl, show ('-').toNat = 45 from rfl,
    show ('.').toNat = 46 from rfl]
  omega

theorem notNetlocDelim_iff (c : Char) :
    notNetlocDelim c = true ↔ (c.toNat ≠ 47 ∧ c.toNat ≠ 63 ∧ c.toNat ≠ 35) := by
  unfold notNetlocDelim
  simp only [Bool.not_eq_true', Bool.or_eq_false_iff, decide_eq_false_iff_not,
    charEq_iff_toNat,
    show ('/').toNat = 47 from rfl, show ('?').toNat = 63 from rfl,
    show ('#').toNat = 35 from rfl]
  omega

theorem ctlFreeChar_iff (c : Char) :
    (!(c = '\t' || c = '\r' || c = '\n')) = true ↔
      (c.toNat ≠ 9 ∧ c.toNat ≠ 13 ∧ c.toNat ≠ 10) := by
  simp only [Bool.not_eq_true', Bool.or_eq_false_iff, decide_eq_false_iff_not,
    charEq_iff_toNat,
    show ('\t').toNat = 9 from rfl, show ('\r').toNat = 13 from rfl,
    show ('\n').toNat = 10 from rfl]
  omega

theorem ctlFree_of_gt (l : List Char) (h : ∀ c ∈ l, 0x20 < c.toNat) : ctlFree l = true := by
  unfold ctlFree
  rw [List.all_eq_true]
  intro c hc
  rw [ctlFreeChar_iff]
  have := h c hc
  omega

theorem ctlFree_append (a b : List Char) (ha : ctlFree a = true) (hb : ctlFree b = true) :
    ctlFree (a ++ b) = true := by
  unfold ctlFree at *
  rw [List.all_append, ha, hb]
  rfl

theorem ctlFree_cons (c : Char) (l : List Char) (hc : 0x20 < c.toNat)
    (hl : ctlFree l = true) : ctlFree (c :: l) = true := by
  unfold ctlFree at *
  rw [List.all_cons, hl, (ctlFreeChar_iff c).mpr (by omega)]
  rfl

theorem cleanUrl_eq_self (l : List Char) (hctl : ctlFree l = true)
    (hhead : ∀ c, l.head? = some c → 0x20 < c.toNat) : cleanUrl l = l := by
  unfold cleanUrl
  have hfilter : ∀ (m : List Char), ctlFree m = true →
      m.filter (fun c => !(c = '\t' || c = '\r' || c = '\n')) = m := by
    intro m hm
    rw [List.filter_eq_self]
    unfold ctlFree at hm
    rw [List.all_eq_true] at hm
    exact hm
  cases l with
  | nil => rfl
  | cons c cs =>
    have hc := hhead c rfl
    rw [List.dropWhile_cons, if_neg (by simp only [decide_eq_true_eq]; omega)]
    exact hfilter _ hctl

/-! ## Lemmas towards idempotence: scheme splitting of the rebuilt URL -/

theorem splitFirst_isSome_of_mem (sep : Char) (l : List Char) (h : sep ∈ l) :
    ∃ a b, splitFirst sep l = some (a, b) := by
  induction l with
  | nil => simp at h
  | cons c cs ih =>
    unfold splitFirst
    by_cases hc : c = sep
    · rw [if_pos hc]
      exact ⟨[], cs, rfl⟩
    · rw [if_neg hc]
      have hmem : sep ∈ cs := by
        rcases List.mem_cons.mp h with h1 | h2
        · exact absurd h1.symm hc
        · exact h2
      rcases ih hmem with ⟨a, b, hab⟩
      rw [hab]
      exact ⟨c :: a, b, rfl⟩

theorem splitScheme_valid (s rest : List Char) (c : Char) (cs : List Char) (hs : s = c :: cs)
    (hv : (isAsciiAlphaCh c && (c :: cs).all schemeChar) = true) :
    splitScheme (s ++ ':' :: rest) = (lowerStr s, rest) := by
  have hnc : ':' ∉ s := by
    intro hmem
    have hall : (c :: cs).all schemeChar = true := by
      have hv2 := hv
      simp only [Bool.and_eq_true] at hv2
      exact hv2.2
    rw [List.all_eq_true] at hall
    rw [hs] at hmem
    have := (schemeChar_iff ':').mp (hall ':' hmem)
    rw [show (':').toNat = 58 from rfl] at this
    omega
  unfold splitScheme
  rw [splitFirst_append_sep ':' s rest hnc, hs]
  dsimp only
  rw [if_pos hv]

theorem splitScheme_none_of_rejected (p tail : List Char) (hrej : schemeRejected p = true)
    (htail : ':' ∉ tail) : splitScheme (p ++ tail) = ([], p ++ tail) := by
  unfold schemeRejected at hrej
  cases hsp : splitFirst ':' p with
  | none =>
    have hpm : ':' ∉ p := by
      intro hm
      rcases splitFirst_isSome_of_mem ':' p hm with ⟨a, b, hab⟩
      rw [hab] at hsp
      exact Option.noConfusion hsp
    have hall : ':' ∉ p ++ tail := by
      intro hm
      rcases List.mem_append.mp hm with h1 | h2
      · exact hpm h1
      · exact htail h2
    unfold splitScheme
    rw [splitFirst_eq_none ':' _ hall]
  | some pr =>
    obtain ⟨pre, suf⟩ := pr
    rw [hsp] at hrej
    obtain ⟨hdec, hpre⟩ := splitFirst_decomp ':' p pre suf hsp
    unfold splitScheme
    rw [show p ++ tail = pre ++ ':' :: (suf ++ tail) from by
      rw [hdec]; simp only [List.append_assoc, List.cons_append]]
    rw [splitFirst_append_sep ':' pre _ hpre]
    cases pre with
    | nil => rfl
    | cons c pcs =>
      dsimp only at hrej ⊢
      rw [Bool.not_eq_true'] at hrej
      rw [if_neg (by rw [hrej]; exact Bool.false_ne_true)]

theorem splitScheme_head_not_alpha (l : List Char)
    (h : ∀ c, l.head? = some c → isAsciiAlphaCh c = false) : splitScheme l = ([], l) := by
  unfold splitScheme
  cases hsp : splitFirst ':' l with
  | none => rfl
  | some pr =>
    obtain ⟨pre, suf⟩ := pr
    obtain ⟨hdec, hpre⟩ := splitFirst_decomp ':' l pre suf hsp
    dsimp only
    cases pre with
    | nil => rfl
    | cons c pcs =>
      have hc : l.head? = some c := by rw [hdec]; rfl
      have halpha := h c hc
      dsimp only
      rw [if_neg (by rw [Bool.and_eq_true]; intro hcon; rw [halpha] at hcon; exact Bool.false_ne_true hcon.1)]

/-! ## Lemmas towards idempotence: netloc, fragment and query splitting -/

theorem takeWhile_eq_nil_head (p : Char → Bool) (rest : List Char)
    (h : rest = [] ∨ ∃ c cs, rest = c :: cs ∧ p c = false) :
    rest.takeWhile p = [] ∧ rest.dropWhile p = rest := by
  rcases h with h | ⟨c, cs, hr, hp⟩
  · subst h
    exact ⟨rfl, rfl⟩
  · subst hr
    constructor
    · rw [List.takeWhile_cons, if_neg (by rw [hp]; exact Bool.false_ne_true)]
    · rw [List.dropWhile_cons, if_neg (by rw [hp]; exact Bool.false_ne_true)]

theorem splitNetloc_shape (n rest2 : List Char) (hn : n.all notNetlocDelim = true)
    (hbra : ((n.contains '[' && !n.contains ']') || (n.contains ']' && !n.contains '[')) = false)
    (hrest : rest2 = [] ∨ ∃ c cs, rest2 = c :: cs ∧ notNetlocDelim c = false) :
    splitNetlocE ('/' :: '/' :: (n ++ rest2)) = Except.ok (n, rest2) := by
  unfold splitNetlocE
  rw [if_pos (show ('/' :: '/' :: (n ++ rest2)).take 2 = ['/', '/'] from rfl)]
  dsimp only
  rw [show List.drop 2 ('/' :: '/' :: (n ++ rest2)) = n ++ rest2 from rfl]
  rw [takeWhile_append_all notNetlocDelim n rest2 hn]
  rw [(takeWhile_eq_nil_head notNetlocDelim rest2 hrest).1, List.append_nil]
  rw [dropWhile_append_all notNetlocDelim n rest2 hn]
  rw [(takeWhile_eq_nil_head notNetlocDelim rest2 hrest).2]
  rw [if_neg (by rw [hbra]; exact Bool.false_ne_true)]

theorem splitNetloc_no_slash (u : List Char) (h : u.take 2 ≠ ['/', '/']) :
    splitNetlocE u = Except.ok ([], u) := by
  unfold splitNetlocE
  rw [if_neg h]

theorem splitHashPair_no_hash (l : List Char) (h : '#' ∉ l) : splitHashPair l = (l, []) := by
  unfold splitHashPair
  rw [splitFirst_eq_none '#' l h]

theorem splitQueryPair_no_q (l : List Char) (h : '?' ∉ l) : splitQueryPair l = (l, []) := by
  unfold splitQueryPair
  rw [splitFirst_eq_none '?' l h]

theorem splitQueryPair_append (p q : List Char) (h : '?' ∉ p) :
    splitQueryPair (p ++ '?' :: q) = (p, q) := by
  unfold splitQueryPair
  rw [splitFirst_append_sep '?' p q h]

/-! ## Lemmas towards idempotence: the canonical path is a fixed point -/

theorem canonPath_not_ends (p : List Char) (h : canonPath p = p) :
    endsWithSlash p = false ∨ p = ['/'] := by
  by_cases he : endsWithSlash p = true
  · by_cases hp : p = ['/']
    · exact Or.inr hp
    · exfalso
      unfold canonPath at h
      rw [if_pos (by rw [he]; simp [hp])] at h
      rcases rstripSlashes_no_trailing p with h2 | h2
      · rw [h] at h2
        subst h2
        exact absurd he (by decide)
      · rw [h] at h2
        rw [h2] at he
        exact Bool.false_ne_true he
  · left
    revert he
    cases endsWithSlash p <;> simp

theorem canonPath_cons_slash (p : List Char) (hp : canonPath p = p) (hne : p ≠ [])
    (hh : ∀ c, p.head? = some c → c ≠ '/') : canonPath ('/' :: p) = '/' :: p := by
  obtain ⟨c, cs, hcc⟩ := List.exists_cons_of_ne_nil hne
  have hslash : c ≠ '/' := hh c (by rw [hcc]; rfl)
  have hends : endsWithSlash ('/' :: p) = endsWithSlash p := by
    unfold endsWithSlash
    rw [hcc, List.getLast?_cons_cons]
  rcases canonPath_not_ends p hp with he | he
  · unfold canonPath
    rw [hends, he, if_neg (by simp)]
  · exfalso
    rw [he] at hcc
    exact hslash (by injection hcc with h1 _; exact h1.symm)

/-! ## Lemmas towards idempotence: lowercasing preserves the component classes -/

theorem lowerPy_keep_alpha (c : Char) (h : isAsciiAlphaCh c = true) :
    isAsciiAlphaCh (lowerPy c) = true := by
  rw [isAsciiAlphaCh_iff] at h ⊢
  rcases lowerPy_spec c with ⟨he, -⟩ | ⟨he, hr⟩
  · rw [he]
    exact h
  · rw [he]
    omega

theorem lowerPy_keep_schemeChar (c : Char) (h : schemeChar c = true) :
    schemeChar (lowerPy c) = true := by
  rw [schemeChar_iff] at h ⊢
  rcases lowerPy_spec c with ⟨he, -⟩ | ⟨he, hr⟩
  · rw [he]
    exact h
  · rw [he]
    omega

theorem lowerPy_keep_notDelim (c : Char) (h : notNetlocDelim c = true) :
    notNetlocDelim (lowerPy c) = true := by
  rw [notNetlocDelim_iff] at h ⊢
  rcases lowerPy_spec c with ⟨he, -⟩ | ⟨he, hr⟩
  · rw [he]
    exact h
  · rw [he]
    omega

theorem lowerPy_keep_ctl (c : Char) (h : (!(c = '\t' || c = '\r' || c = '\n')) = true) :
    (!(lowerPy c = '\t' || lowerPy c = '\r' || lowerPy c = '\n')) = true := by
  rw [ctlFreeChar_iff] at h ⊢
  rcases lowerPy_spec c with ⟨he, -⟩ | ⟨he, hr⟩
  · rw [he]
    exact h
  · rw [he]
    omega

theorem lowerStr_keep_all (p : Char → Bool) (hkeep : ∀ c, p c = true → p (lowerPy c) = true)
    (l : List Char) (h : l.all p = true) : (lowerStr l).all p = true := by
  unfold lowerStr
  rw [List.all_map, List.all_eq_true]
  rw [List.all_eq_true] at h
  intro c hc
  exact hkeep c (h c hc)

theorem lowerStr_eq_nil (l : List Char) : lowerStr l = [] ↔ l = [] := by
  unfold lowerStr
  exact List.map_eq_nil_iff

theorem contains_lowerStr (l : List Char) (d : Char)
    (hm : ∀ c, lowerPy c = d ↔ c = d) : (lowerStr l).contains d = l.contains d := by
  induction l with
  | nil => rfl
  | cons c cs ih =>
    show (lowerPy c :: lowerStr cs).contains d = (c :: cs).contains d
    rw [List.contains_cons, List.contains_cons, ih]
    congr 1
    by_cases h : c = d
    · rw [(hm c).mpr h, h]
    · have h2 : lowerPy c ≠ d := fun e => h ((hm c).mp e)
      rw [beq_eq_false_iff_ne.mpr (fun e => h2 e.symm),
        beq_eq_false_iff_ne.mpr (fun e => h e.symm)]

theorem takeWhile_all (p : Char → Bool) (l : List Char) : (l.takeWhile p).all p = true := by
  induction l with
  | nil => rfl
  | cons c cs ih =>
    rw [List.takeWhile_cons]
    by_cases h : p c = true
    · rw [if_pos h, List.all_cons, h, ih]
      rfl
    · rw [if_neg h]
      rfl

theorem mem_of_mem_takeWhile (p : Char → Bool) (l : List Char) (a : Char)
    (h : a ∈ l.takeWhile p) : a ∈ l := List.Sublist.mem h (List.takeWhile_sublist p)

theorem mem_of_mem_dropWhile (p : Char → Bool) (l : List Char) (a : Char)
    (h : a ∈ l.dropWhile p) : a ∈ l := List.Sublist.mem h (List.dropWhile_sublist p)

/-! ## Lemmas towards idempotence: the rebuilt query string -/

theorem quotePlus_mem_props2 (l : List Char) (ch : Char) (h : ch ∈ quotePlus l) :
    32 < ch.toNat ∧ ch.toNat ≠ 35 ∧ ch.toNat ≠ 58 := by
  unfold quotePlus at h
  rw [List.mem_flatMap] at h
  obtain ⟨c, _, hch⟩ := h
  unfold quotePlusChar at hch
  by_cases hs : alwaysSafe c = true
  · rw [if_pos hs] at hch
    simp only [List.mem_singleton] at hch
    subst hch
    rcases alwaysSafe_toNat _ hs with h | h | h | h | h | h | h <;> omega
  · rw [if_neg hs] at hch
    by_cases hsp : c = ' '
    · rw [if_pos hsp] at hch
      simp only [List.mem_singleton] at hch
      subst hch
      refine ⟨by decide, by decide, by decide⟩
    · rw [if_neg hsp] at hch
      rw [List.mem_flatMap] at hch
      obtain ⟨b, hb, hch⟩ := hch
      have hb256 : b < 256 := by
        have hall := utf8EncodeNat_bytes_lt c.toNat (char_toNat_lt c)
        rw [List.all_eq_true] at hall
        have := hall b hb
        simpa using this
      unfold pctEncByte at hch
      simp only [List.mem_cons, List.not_mem_nil, or_false] at hch
      rcases hch with h1 | h2 | h3
      · subst h1
        refine ⟨by decide, by decide, by decide⟩
      · subst h2
        rcases pctHexDigit_range (b / 16) (by omega) with h | h <;> omega
      · subst h3
        rcases pctHexDigit_range (b % 16) (by omega) with h | h <;> omega

theorem mem_intercalate_amp : ∀ (pieces : List (List Char)) (ch : Char),
    ch ∈ List.intercalate ['&'] pieces → ch = '&' ∨ ∃ q ∈ pieces, ch ∈ q := by
  intro pieces
  induction pieces with
  | nil =>
    intro ch h
    rw [show List.intercalate ['&'] ([] : List (List Char)) = [] from rfl] at h
    exact absurd h (List.not_mem_nil ch)
  | cons p rest ih =>
    intro ch h
    cases rest with
    | nil =>
      rw [intercalate_amp_singleton] at h
      exact Or.inr ⟨p, List.mem_cons_self p [], h⟩
    | cons q rest2 =>
      rw [intercalate_amp_cons_cons] at h
      rcases List.mem_append.mp h with h1 | h2
      · exact Or.inr ⟨p, List.mem_cons_self p _, h1⟩
      · rcases List.mem_cons.mp h2 with h3 | h4
        · exact Or.inl h3
        · rcases ih ch h4 with h5 | ⟨r, hr, hcr⟩
          · exact Or.inl h5
          · exact Or.inr ⟨r, List.mem_cons_of_mem p hr, hcr⟩

theorem urlencodeM_mem_props (L : List (List Char × List Char)) (ch : Char)
    (h : ch ∈ urlencodeM L) :
    (0x20 < ch.toNat ∧ ch.toNat < 0x80) ∧ ch.toNat ≠ 35 ∧ ch.toNat ≠ 58 := by
  unfold urlencodeM at h
  rcases mem_intercalate_amp _ ch h with h1 | ⟨piece, hp, hcp⟩
  · subst h1
    exact ⟨⟨by decide, by decide⟩, by decide, by decide⟩
  · rw [List.mem_map] at hp
    obtain ⟨pr, -, hpe⟩ := hp
    subst hpe
    unfold urlencodePair at hcp
    rcases List.mem_append.mp hcp with h2 | h3
    · have a := quotePlus_mem_props pr.1 ch h2
      have b := quotePlus_mem_props2 pr.1 ch h2
      exact ⟨⟨b.1, a.1⟩, b.2.1, b.2.2⟩
    · rcases List.mem_cons.mp h3 with h4 | h5
      · subst h4
        exact ⟨⟨by decide, by decide⟩, by decide, by decide⟩
      · have a := quotePlus_mem_props pr.2 ch h5
        have b := quotePlus_mem_props2 pr.2 ch h5
        exact ⟨⟨b.1, a.1⟩, b.2.1, b.2.2⟩

theorem filterTracking_idem (l : List (List Char × List Char)) :
    filterTracking (filterTracking l) = filterTracking l := by
  unfold filterTracking
  rw [List.filter_filter]
  simp only [Bool.and_self]

theorem urlencode_filter_fix (q0 : List Char) :
    urlencodeM (filterTracking (parseQsl (urlencodeM (filterTracking (parseQsl q0)))))
      = urlencodeM (filterTracking (parseQsl q0)) := by
  rw [parseQsl_urlencodeM, filterTracking_idem]

/-! ## Lemmas towards idempotence: re-splitting the rebuilt URL -/

theorem urlsplitM_build (R s rest n2 rest2 p2 q2 : List Char)
    (hclean : cleanUrl R = R)
    (hscheme : splitScheme R = (s, rest))
    (hnet : splitNetlocE rest = Except.ok (n2, rest2))
    (hhash : splitHashPair rest2 = (rest2, []))
    (hquery : splitQueryPair rest2 = (p2, q2)) :
    urlsplitM R = Except.ok ⟨s, n2, p2, q2, []⟩ := by
  unfold urlsplitM
  dsimp only
  rw [hclean, hscheme]
  dsimp only
  rw [hnet]
  dsimp only
  rw [hhash]
  dsimp only
  rw [hquery]

theorem urlunsplitM_noreadd_shape (s n p q : List Char)
    (hre : ¬(n ≠ [] ∨ (s ≠ [] ∧ s ∈ usesNetloc ∧ p.take 2 ≠ ['/', '/']))) :
    urlunsplitM s n p q [] =
      (if q ≠ [] then (if s ≠ [] then s ++ ':' :: p else p) ++ '?' :: q
        else (if s ≠ [] then s ++ ':' :: p else p)) := by
  unfold urlunsplitM
  dsimp only
  rw [if_neg (fun hh => hh rfl), if_neg hre]

theorem urlunsplitM_readd_shape (s n p q : List Char) (hcp : canonPath p = p)
    (hre : n ≠ [] ∨ (s ≠ [] ∧ s ∈ usesNetloc ∧ p.take 2 ≠ ['/', '/'])) :
    ∃ pp, (pp = [] ∨ ∃ t, pp = '/' :: t) ∧ canonPath pp = pp ∧
      (∀ ch ∈ pp, ch = '/' ∨ ch ∈ p) ∧
      (p.take 2 ≠ ['/', '/'] → pp.take 2 ≠ ['/', '/']) ∧
      urlunsplitM s n p q [] =
        (if q ≠ [] then (if s ≠ [] then s ++ ':' :: ('/' :: '/' :: (n ++ pp))
            else '/' :: '/' :: (n ++ pp)) ++ '?' :: q
          else (if s ≠ [] then s ++ ':' :: ('/' :: '/' :: (n ++ pp))
            else '/' :: '/' :: (n ++ pp))) ∧
      urlunsplitM s n pp q [] = urlunsplitM s n p q [] := by
  cases p with
  | nil =>
    refine ⟨[], Or.inl rfl, rfl, fun ch h => absurd h (List.not_mem_nil ch),
      fun _ => by decide, ?_, rfl⟩
    unfold urlunsplitM
    dsimp only
    simp only [if_neg (show ¬(([] : List Char) ≠ []) from fun hh => hh rfl), if_pos hre]
    simp only [List.cons_append]
  | cons c cs =>
    by_cases hc : c = '/'
    · subst hc
      refine ⟨'/' :: cs, Or.inr ⟨cs, rfl⟩, hcp, fun ch h => Or.inr h, fun h => h, ?_, rfl⟩
      unfold urlunsplitM
      dsimp only
      simp only [if_neg (show ¬(([] : List Char) ≠ []) from fun hh => hh rfl), if_pos hre,
        if_neg (show ¬(('/' : Char) ≠ '/') from fun hh => hh rfl)]
      simp only [List.cons_append]
    · have htake : ('/' :: c :: cs).take 2 ≠ ['/', '/'] := by
        intro hcon
        have hcon2 : ('/' : Char) :: c :: [] = ['/', '/'] := hcon
        injection hcon2 with h1 h2
        injection h2 with h3 h4
        exact hc h3
      refine ⟨'/' :: c :: cs, Or.inr ⟨c :: cs, rfl⟩, ?_, fun ch h => List.mem_cons.mp h,
        fun _ => htake, ?_, ?_⟩
      · exact canonPath_cons_slash (c :: cs) hcp (by simp)
          (fun d hd => by
            rw [List.head?_cons, Option.some.injEq] at hd
            rw [← hd]
            exact hc)
      · unfold urlunsplitM
        dsimp only
        simp only [if_neg (show ¬(([] : List Char) ≠ []) from fun hh => hh rfl), if_pos hre,
          if_pos hc]
        simp only [List.cons_append]
      · have hre2 : n ≠ [] ∨ (s ≠ [] ∧ s ∈ usesNetloc ∧ ('/' :: c :: cs).take 2 ≠ ['/', '/']) := by
          rcases hre with h | ⟨h1, h2, h3⟩
          · exact Or.inl h
          · exact Or.inr ⟨h1, h2, htake⟩
        unfold urlunsplitM
        dsimp only
        simp only [if_neg (show ¬(([] : List Char) ≠ []) from fun hh => hh rfl), if_pos hre2,
          if_pos hre, if_pos hc,
          if_neg (show ¬(('/' : Char) ≠ '/') from fun hh => hh rfl)]

theorem take2_append_not_slash (p qt : List Char) (htake : p.take 2 ≠ ['/', '/'])
    (hqt : qt = [] ∨ ∃ t, qt = '?' :: t) : (p ++ qt).take 2 ≠ ['/', '/'] := by
  cases p with
  | nil =>
    rcases hqt with rfl | ⟨t, rfl⟩
    · decide
    · intro hcon
      have h2 : ('?' : Char) :: List.take 1 t = ['/', '/'] := hcon
      injection h2 with h1 _
      exact absurd h1 (by decide)
  | cons a as =>
    cases as with
    | nil =>
      rcases hqt with rfl | ⟨t, rfl⟩
      · intro hcon
        simp at hcon
      · intro hcon
        have h2 : a :: '?' :: [] = ['/', '/'] := hcon
        injection h2 with _ h3
        injection h3 with h4 _
        exact absurd h4 (by decide)
    | cons b bs =>
      intro hcon
      have h3 : a :: b :: [] = ['/', '/'] := hcon
      apply htake
      exact h3

/-- Re-splitting a rebuilt URL that did not get `//` re-added returns exactly
the components it was built from. -/
theorem urlsplit_rebuilt_noreadd (s p q : List Char)
    (hs_ok : s = [] ∨ ∃ c cs, s = c :: cs ∧ (isAsciiAlphaCh c && (c :: cs).all schemeChar) = true)
    (hslower : lowerStr s = s)
    (hnf : p.all (fun c => !(c = '?' || c = '#')) = true)
    (hctlp : ctlFree p = true)
    (htake : p.take 2 ≠ ['/', '/'])
    (hrej : s = [] → schemeRejected p = true)
    (hhead : s = [] → ∀ c, p.head? = some c → 0x20 < c.toNat)
    (hq : ∀ ch ∈ q, (0x20 < ch.toNat ∧ ch.toNat < 0x80) ∧ ch.toNat ≠ 35 ∧ ch.toNat ≠ 58) :
    urlsplitM (if q ≠ [] then (if s ≠ [] then s ++ ':' :: p else p) ++ '?' :: q
        else (if s ≠ [] then s ++ ':' :: p else p))
      = Except.ok ⟨s, [], p, q, []⟩ := by
  have hq32 : ∀ ch ∈ q, 0x20 < ch.toNat := fun ch h => (hq ch h).1.1
  have hctlq : ctlFree q = true := ctlFree_of_gt q hq32
  have hq35 : '#' ∉ q := fun hm => (hq '#' hm).2.1 rfl
  have hq58 : ':' ∉ q := fun hm => (hq ':' hm).2.2 rfl
  have hp35 : '#' ∉ p := fun hm => absurd (List.all_eq_true.mp hnf '#' hm) (by decide)
  have hp63 : '?' ∉ p := fun hm => absurd (List.all_eq_true.mp hnf '?' hm) (by decide)
  have hq58t : ':' ∉ ('?' :: q) := by
    intro hm
    rcases List.mem_cons.mp hm with h1 | h2
    · exact absurd h1 (by decide)
    · exact hq58 h2
  rcases hs_ok with hs_nil | ⟨c, cs, hs_eq, hv⟩
  · subst hs_nil
    by_cases hq0 : q ≠ []
    · rw [if_pos hq0, if_neg (fun hh : ([] : List Char) ≠ [] => hh rfl)]
      have hheadPQ : ∀ d, (p ++ '?' :: q).head? = some d → 0x20 < d.toNat := by
        cases p with
        | nil =>
          intro d hd
          rw [List.nil_append, List.head?_cons, Option.some.injEq] at hd
          rw [← hd]
          decide
        | cons a as =>
          intro d hd
          rw [List.cons_append, List.head?_cons, Option.some.injEq] at hd
          rw [← hd]
          exact hhead rfl a rfl
      refine urlsplitM_build _ _ (p ++ '?' :: q) _ (p ++ '?' :: q) _ _ ?_ ?_ ?_ ?_ ?_
      · exact cleanUrl_eq_self _
          (ctlFree_append _ _ hctlp (ctlFree_cons '?' _ (by decide) hctlq)) hheadPQ
      · exact splitScheme_none_of_rejected p ('?' :: q) (hrej rfl) hq58t
      · exact splitNetloc_no_slash _ (take2_append_not_slash p ('?' :: q) htake (Or.inr ⟨q, rfl⟩))
      · apply splitHashPair_no_hash
        intro hm
        rcases List.mem_append.mp hm with h1 | h2
        · exact hp35 h1
        · rcases List.mem_cons.mp h2 with h3 | h4
          · exact absurd h3 (by decide)
          · exact hq35 h4
      · exact splitQueryPair_append p q hp63
    · have hqe : q = [] := not_not.mp hq0
      subst hqe
      rw [if_neg hq0, if_neg (fun hh : ([] : List Char) ≠ [] => hh rfl)]
      refine urlsplitM_build _ _ p _ p _ _ ?_ ?_ ?_ ?_ ?_
      · exact cleanUrl_eq_self _ hctlp (fun d hd => hhead rfl d hd)
      · have := splitScheme_none_of_rejected p [] (hrej rfl) (by simp)
        rw [List.append_nil] at this
        exact this
      · exact splitNetloc_no_slash _ htake
      · exact splitHashPair_no_hash _ hp35
      · exact splitQueryPair_no_q _ hp63
  · subst hs_eq
    have halpha : isAsciiAlphaCh c = true := by
      have hv2 := hv
      simp only [Bool.and_eq_true] at hv2
      exact hv2.1
    have hschars : ∀ ch ∈ c :: cs, 32 < ch.toNat := by
      intro ch hm
      have hv2 := hv
      simp only [Bool.and_eq_true] at hv2
      have := (schemeChar_iff ch).mp (List.all_eq_true.mp hv2.2 ch hm)
      omega
    have hctls : ctlFree (c :: cs) = true := ctlFree_of_gt _ hschars
    have hcal : 0x20 < c.toNat := hschars c (List.mem_cons_self c cs)
    by_cases hq0 : q ≠ []
    · rw [if_pos hq0, if_pos (List.cons_ne_nil c cs)]
      rw [show ((c :: cs) ++ ':' :: p) ++ '?' :: q = (c :: cs) ++ ':' :: (p ++ '?' :: q) from by
        simp only [List.cons_append, List.append_assoc]]
      refine urlsplitM_build _ _ (p ++ '?' :: q) _ (p ++ '?' :: q) _ _ ?_ ?_ ?_ ?_ ?_
      · refine cleanUrl_eq_self _
          (ctlFree_append _ _ hctls (ctlFree_cons ':' _ (by decide)
            (ctlFree_append _ _ hctlp (ctlFree_cons '?' _ (by decide) hctlq)))) ?_
        intro d hd
        rw [show ((c :: cs) ++ ':' :: (p ++ '?' :: q)).head? = some c from rfl,
          Option.some.injEq] at hd
        rw [← hd]
        exact hcal
      · have := splitScheme_valid (c :: cs) (p ++ '?' :: q) c cs rfl hv
        rw [hslower] at this
        exact this
      · exact splitNetloc_no_slash _ (take2_append_not_slash p ('?' :: q) htake (Or.inr ⟨q, rfl⟩))
      · apply splitHashPair_no_hash
        intro hm
        rcases List.mem_append.mp hm with h1 | h2
        · exact hp35 h1
        · rcases List.mem_cons.mp h2 with h3 | h4
          · exact absurd h3 (by decide)
          · exact hq35 h4
      · exact splitQueryPair_append p q hp63
    · have hqe : q = [] := not_not.mp hq0
      subst hqe
      rw [if_neg hq0, if_pos (List.cons_ne_nil c cs)]
      refine urlsplitM_build _ _ p _ p _ _ ?_ ?_ ?_ ?_ ?_
      · refine cleanUrl_eq_self _
          (ctlFree_append _ _ hctls (ctlFree_cons ':' _ (by decide) hctlp)) ?_
        intro d hd
        rw [show ((c :: cs) ++ ':' :: p).head? = some c from rfl, Option.some.injEq] at hd
        rw [← hd]
        exact hcal
      · have := splitScheme_valid (c :: cs) p c cs rfl hv
        rw [hslower] at this
        exact this
      · exact splitNetloc_no_slash _ htake
      · exact splitHashPair_no_hash _ hp35
      · exact splitQueryPair_no_q _ hp63

theorem pathq_head_delim (pp qt : List Char) (hshape : pp = [] ∨ ∃ t, pp = '/' :: t)
    (hqt : qt = [] ∨ ∃ t, qt = '?' :: t) :
    pp ++ qt = [] ∨ ∃ c cs, pp ++ qt = c :: cs ∧ notNetlocDelim c = false := by
  rcases hshape with rfl | ⟨t, rfl⟩
  · rcases hqt with rfl | ⟨t2, rfl⟩
    · exact Or.inl rfl
    · exact Or.inr ⟨'?', t2, rfl, by decide⟩
  · exact Or.inr ⟨'/', t ++ qt, rfl, by decide⟩

/-- Re-splitting a rebuilt URL whose netloc part `//` was emitted returns the
netloc and path-part it was built from. -/
theorem urlsplit_rebuilt_readd (s n pp q : List Char)
    (hs_ok : s = [] ∨ ∃ c cs, s = c :: cs ∧ (isAsciiAlphaCh c && (c :: cs).all schemeChar) = true)
    (hslower : lowerStr s = s)
    (hn : n.all notNetlocDelim = true)
    (hctln : ctlFree n = true)
    (hbra : ((n.contains '[' && !n.contains ']') || (n.contains ']' && !n.contains '[')) = false)
    (hshape : pp = [] ∨ ∃ t, pp = '/' :: t)
    (hnf : pp.all (fun c => !(c = '?' || c = '#')) = true)
    (hctlp : ctlFree pp = true)
    (hq : ∀ ch ∈ q, (0x20 < ch.toNat ∧ ch.toNat < 0x80) ∧ ch.toNat ≠ 35 ∧ ch.toNat ≠ 58) :
    urlsplitM (if q ≠ [] then (if s ≠ [] then s ++ ':' :: ('/' :: '/' :: (n ++ pp))
          else '/' :: '/' :: (n ++ pp)) ++ '?' :: q
        else (if s ≠ [] then s ++ ':' :: ('/' :: '/' :: (n ++ pp))
          else '/' :: '/' :: (n ++ pp)))
      = Except.ok ⟨s, n, pp, q, []⟩ := by
  have hq32 : ∀ ch ∈ q, 0x20 < ch.toNat := fun ch h => (hq ch h).1.1
  have hctlq : ctlFree q = true := ctlFree_of_gt q hq32
  have hq35 : '#' ∉ q := fun hm => (hq '#' hm).2.1 rfl
  have hp35 : '#' ∉ pp := fun hm => absurd (List.all_eq_true.mp hnf '#' hm) (by decide)
  have hp63 : '?' ∉ pp := fun hm => absurd (List.all_eq_true.mp hnf '?' hm) (by decide)
  have hhash2 : '#' ∉ pp ++ '?' :: q := by
    intro hm
    rcases List.mem_append.mp hm with h1 | h2
    · exact hp35 h1
    · rcases List.mem_cons.mp h2 with h3 | h4
      · exact absurd h3 (by decide)
      · exact hq35 h4
  have hctlcore : ∀ (t : List Char), ctlFree t = true →
      ctlFree ('/' :: '/' :: (n ++ t)) = true := by
    intro t ht
    exact ctlFree_cons '/' _ (by decide) (ctlFree_cons '/' _ (by decide)
      (ctlFree_append _ _ hctln ht))
  have hctlpq : ctlFree (pp ++ '?' :: q) = true :=
    ctlFree_append _ _ hctlp (ctlFree_cons '?' _ (by decide) hctlq)
  rcases hs_ok with hs_nil | ⟨c, cs, hs_eq, hv⟩
  · subst hs_nil
    by_cases hq0 : q ≠ []
    · rw [if_pos hq0, if_neg (fun hh : ([] : List Char) ≠ [] => hh rfl)]
      rw [show ('/' :: '/' :: (n ++ pp)) ++ '?' :: q = '/' :: '/' :: (n ++ (pp ++ '?' :: q)) from by
        simp only [List.cons_append, List.append_assoc]]
      refine urlsplitM_build _ _ ('/' :: '/' :: (n ++ (pp ++ '?' :: q))) _ (pp ++ '?' :: q) _ _
        ?_ ?_ ?_ ?_ ?_
      · refine cleanUrl_eq_self _ (hctlcore _ hctlpq) ?_
        intro d hd
        rw [List.head?_cons, Option.some.injEq] at hd
        rw [← hd]
        decide
      · exact splitScheme_head_not_alpha _ (fun d hd => by
          rw [List.head?_cons, Option.some.injEq] at hd
          rw [← hd]
          decide)
      · exact splitNetloc_shape n (pp ++ '?' :: q) hn hbra
          (pathq_head_delim pp ('?' :: q) hshape (Or.inr ⟨q, rfl⟩))
      · exact splitHashPair_no_hash _ hhash2
      · exact splitQueryPair_append pp q hp63
    · have hqe : q = [] := not_not.mp hq0
      subst hqe
      rw [if_neg hq0, if_neg (fun hh : ([] : List Char) ≠ [] => hh rfl)]
      refine urlsplitM_build _ _ ('/' :: '/' :: (n ++ pp)) _ pp _ _ ?_ ?_ ?_ ?_ ?_
      · refine cleanUrl_eq_self _ (hctlcore _ hctlp) ?_
        intro d hd
        rw [List.head?_cons, Option.some.injEq] at hd
        rw [← hd]
        decide
      · exact splitScheme_head_not_alpha _ (fun d hd => by
          rw [List.head?_cons, Option.some.injEq] at hd
          rw [← hd]
          decide)
      · exact splitNetloc_shape n pp hn hbra (by
          have := pathq_head_delim pp [] hshape (Or.inl rfl)
          rwa [List.append_nil] at this)
      · exact splitHashPair_no_hash _ hp35
      · exact splitQueryPair_no_q _ hp63
  · subst hs_eq
    have hschars : ∀ ch ∈ c :: cs, 32 < ch.toNat := by
      intro ch hm
      have hv2 := hv
      simp only [Bool.and_eq_true] at hv2
      have := (schemeChar_iff ch).mp (List.all_eq_true.mp hv2.2 ch hm)
      omega
    have hctls : ctlFree (c :: cs) = true := ctlFree_of_gt _ hschars
    have hcal : 0x20 < c.toNat := hschars c (List.mem_cons_self c cs)
    by_cases hq0 : q ≠ []
    · rw [if_pos hq0, if_pos (List.cons_ne_nil c cs)]
      rw [show ((c :: cs) ++ ':' :: ('/' :: '/' :: (n ++ pp))) ++ '?' :: q
          = (c :: cs) ++ ':' :: ('/' :: '/' :: (n ++ (pp ++ '?' :: q))) from by
        simp only [List.cons_append, List.append_assoc]]
      refine urlsplitM_build _ _ ('/' :: '/' :: (n ++ (pp ++ '?' :: q))) _ (pp ++ '?' :: q) _ _
        ?_ ?_ ?_ ?_ ?_
      · refine cleanUrl_eq_self _
          (ctlFree_append _ _ hctls (ctlFree_cons ':' _ (by decide) (hctlcore _ hctlpq))) ?_
        intro d hd
        rw [show ((c :: cs) ++ ':' :: ('/' :: '/' :: (n ++ (pp ++ '?' :: q)))).head? = some c
          from rfl, Option.some.injEq] at hd
        rw [← hd]
        exact hcal
      · have := splitScheme_valid (c :: cs) ('/' :: '/' :: (n ++ (pp ++ '?' :: q))) c cs rfl hv
        rw [hslower] at this
        exact this
      · exact splitNetloc_shape n (pp ++ '?' :: q) hn hbra
          (pathq_head_delim pp ('?' :: q) hshape (Or.inr ⟨q, rfl⟩))
      · exact splitHashPair_no_hash _ hhash2
      · exact splitQueryPair_append pp q hp63
    · have hqe : q = [] := not_not.mp hq0
      subst hqe
      rw [if_neg hq0, if_pos (List.cons_ne_nil c cs)]
      refine urlsplitM_build _ _ ('/' :: '/' :: (n ++ pp)) _ pp _ _ ?_ ?_ ?_ ?_ ?_
      · refine cleanUrl_eq_self _
          (ctlFree_append _ _ hctls (ctlFree_cons ':' _ (by decide) (hctlcore _ hctlp))) ?_
        intro d hd
        rw [show ((c :: cs) ++ ':' :: ('/' :: '/' :: (n ++ pp))).head? = some c from rfl,
          Option.some.injEq] at hd
        rw [← hd]
        exact hcal
      · have := splitScheme_valid (c :: cs) ('/' :: '/' :: (n ++ pp)) c cs rfl hv
        rw [hslower] at this
        exact this
      · exact splitNetloc_shape n pp hn hbra (by
          have := pathq_head_delim pp [] hshape (Or.inl rfl)
          rwa [List.append_nil] at this)
      · exact splitHashPair_no_hash _ hp35
      · exact splitQueryPair_no_q _ hp63

/-- One re-split/rebuild round on components satisfying the invariants is the
identity on the rebuilt string. -/
theorem resplit (s n p q : List Char) (hC : Canon s n p q)
    (hnp : n ≠ [] ∨ p.take 2 ≠ ['/', '/']) :
    ∃ n2 p2, urlsplitM (urlunsplitM s n p q []) = Except.ok ⟨s, n2, p2, q, []⟩ ∧
      lowerStr n2 = n2 ∧ canonPath p2 = p2 ∧
      urlunsplitM s n2 p2 q [] = urlunsplitM s n p q [] := by
  by_cases hre : n ≠ [] ∨ (s ≠ [] ∧ s ∈ usesNetloc ∧ p.take 2 ≠ ['/', '/'])
  · obtain ⟨pp, hshape, hcanon, hmem, htake2, hRdef, hrebuild⟩ :=
      urlunsplitM_readd_shape s n p q hC.path_canon hre
    have hnf2 : pp.all (fun c => !(c = '?' || c = '#')) = true := by
      rw [List.all_eq_true]
      intro ch hm
      rcases hmem ch hm with h1 | h2
      · subst h1
        decide
      · exact List.all_eq_true.mp hC.path_nf ch h2
    have hctl2 : ctlFree pp = true := by
      have hpc := hC.path_ctl
      unfold ctlFree at hpc ⊢
      rw [List.all_eq_true]
      intro ch hm
      rcases hmem ch hm with h1 | h2
      · subst h1
        decide
      · exact List.all_eq_true.mp hpc ch h2
    refine ⟨n, pp, ?_, hC.netloc_lower, hcanon, hrebuild⟩
    rw [hRdef]
    exact urlsplit_rebuilt_readd s n pp q hC.scheme_ok hC.scheme_lower hC.netloc_nd
      hC.netloc_ctl hC.netloc_bra hshape hnf2 hctl2 hC.q_mem
  · have hn_nil : n = [] := by
      by_contra hcon
      exact hre (Or.inl hcon)
    subst hn_nil
    have htake : p.take 2 ≠ ['/', '/'] := by
      rcases hnp with h | h
      · exact absurd rfl h
      · exact h
    refine ⟨[], p, ?_, rfl, hC.path_canon, rfl⟩
    rw [urlunsplitM_noreadd_shape s [] p q hre]
    exact urlsplit_rebuilt_noreadd s p q hC.scheme_ok hC.scheme_lower hC.path_nf
      hC.path_ctl htake (fun hs => hC.path_scheme hs rfl) (fun hs => hC.path_head hs rfl)
      hC.q_mem

/-! ## Lemmas towards idempotence: structure of a successful first split -/

theorem splitScheme_cases (v : List Char) :
    splitScheme v = ([], v) ∨
    ∃ c cs post, v = (c :: cs) ++ ':' :: post ∧ splitScheme v = (lowerStr (c :: cs), post) ∧
      (isAsciiAlphaCh c && (c :: cs).all schemeChar) = true := by
  unfold splitScheme
  cases hsp : splitFirst ':' v with
  | none => exact Or.inl rfl
  | some pr =>
    obtain ⟨pre, post⟩ := pr
    obtain ⟨hdec, hpre⟩ := splitFirst_decomp ':' v pre post hsp
    dsimp only
    cases pre with
    | nil => exact Or.inl rfl
    | cons c cs =>
      dsimp only
      by_cases hv : (isAsciiAlphaCh c && (c :: cs).all schemeChar) = true
      · rw [if_pos hv]
        exact Or.inr ⟨c, cs, post, hdec, rfl, hv⟩
      · rw [if_neg hv]
        exact Or.inl rfl

theorem splitNetlocE_ok_cases (v n2 r2 : List Char)
    (h : splitNetlocE v = Except.ok (n2, r2)) :
    (v.take 2 ≠ ['/', '/'] ∧ n2 = [] ∧ r2 = v) ∨
    (v.take 2 = ['/', '/'] ∧ n2 = (v.drop 2).takeWhile notNetlocDelim ∧
      r2 = (v.drop 2).dropWhile notNetlocDelim ∧
      ((n2.contains '[' && !n2.contains ']') || (n2.contains ']' && !n2.contains '[')) = false) := by
  unfold splitNetlocE at h
  by_cases ht : v.take 2 = ['/', '/']
  · rw [if_pos ht] at h
    dsimp only at h
    by_cases hbra : ((((v.drop 2).takeWhile notNetlocDelim).contains '[' &&
        !((v.drop 2).takeWhile notNetlocDelim).contains ']') ||
        (((v.drop 2).takeWhile notNetlocDelim).contains ']' &&
        !((v.drop 2).takeWhile notNetlocDelim).contains '[')) = true
    · rw [if_pos hbra] at h
      exact absurd h (by simp)
    · rw [if_neg hbra] at h
      injection h with h2
      rw [Prod.mk.injEq] at h2
      refine Or.inr ⟨ht, h2.1.symm, h2.2.symm, ?_⟩
      rw [← h2.1]
      exact Bool.eq_false_iff.mpr hbra
  · rw [if_neg ht] at h
    injection h with h2
    rw [Prod.mk.injEq] at h2
    exact Or.inl ⟨ht, h2.1.symm, h2.2.symm⟩

theorem splitHashPair_fst (v : List Char) :
    '#' ∉ (splitHashPair v).1 ∧ ∃ t, v = (splitHashPair v).1 ++ t := by
  unfold splitHashPair
  cases hsp : splitFirst '#' v with
  | none =>
    dsimp only
    constructor
    · intro hm
      rcases splitFirst_isSome_of_mem '#' v hm with ⟨a, b, hab⟩
      rw [hab] at hsp
      exact Option.noConfusion hsp
    · exact ⟨[], (List.append_nil v).symm⟩
  | some pr =>
    obtain ⟨a, b⟩ := pr
    obtain ⟨hdec, hpre⟩ := splitFirst_decomp '#' v a b hsp
    dsimp only
    exact ⟨hpre, '#' :: b, hdec⟩

theorem splitQueryPair_fst (v : List Char) :
    '?' ∉ (splitQueryPair v).1 ∧ ∃ t, v = (splitQueryPair v).1 ++ t := by
  unfold splitQueryPair
  cases hsp : splitFirst '?' v with
  | none =>
    dsimp only
    constructor
    · intro hm
      rcases splitFirst_isSome_of_mem '?' v hm with ⟨a, b, hab⟩
      rw [hab] at hsp
      exact Option.noConfusion hsp
    · exact ⟨[], (List.append_nil v).symm⟩
  | some pr =>
    obtain ⟨a, b⟩ := pr
    obtain ⟨hdec, hpre⟩ := splitFirst_decomp '?' v a b hsp
    dsimp only
    exact ⟨hpre, '?' :: b, hdec⟩

theorem canonPath_prefix (p : List Char) : ∃ t, p = canonPath p ++ t := by
  unfold canonPath
  by_cases hc : (endsWithSlash p && decide (p ≠ ['/'])) = true
  · rw [if_pos hc]
    unfold rstripSlashes
    refine ⟨(p.reverse.takeWhile (fun c => c = '/')).reverse, ?_⟩
    rw [← List.reverse_append, List.takeWhile_append_dropWhile, List.reverse_reverse]
  · rw [if_neg hc]
    exact ⟨[], (List.append_nil p).symm⟩

theorem canonPath_idem (p : List Char) : canonPath (canonPath p) = canonPath p := by
  by_cases hc : (endsWithSlash p && decide (p ≠ ['/'])) = true
  · have h1 : canonPath p = rstripSlashes p := by
      unfold canonPath
      rw [if_pos hc]
    rw [h1]
    rcases rstripSlashes_no_trailing p with h | h
    · rw [h]
      rfl
    · unfold canonPath
      rw [if_neg (by rw [h]; simp)]
  · have h1 : canonPath p = p := by
      unfold canonPath
      rw [if_neg hc]
    rw [h1, h1]

theorem mem_canonPath (p : List Char) (ch : Char) (h : ch ∈ canonPath p) : ch ∈ p := by
  obtain ⟨t, ht⟩ := canonPath_prefix p
  rw [ht]
  exact List.mem_append.mpr (Or.inl h)

theorem ctlFree_cleanUrl (u : List Char) : ctlFree (cleanUrl u) = true := by
  unfold ctlFree cleanUrl
  rw [List.all_eq_true]
  intro c hc
  exact (List.mem_filter.mp hc).2

theorem cleanUrl_head (u : List Char) : ∀ c, (cleanUrl u).head? = some c → 0x20 < c.toNat := by
  intro c hc
  unfold cleanUrl at hc
  rcases dropWhile_head_not (fun c => decide (c.toNat ≤ 0x20)) u with h | ⟨d, rest, h, hd⟩
  · rw [h] at hc
    exact absurd hc (by simp)
  · rw [h] at hc
    have hd32 : 0x20 < d.toNat := by
      simp only [decide_eq_false_iff_not] at hd
      omega
    rw [List.filter_cons, if_pos (by rw [ctlFreeChar_iff]; omega)] at hc
    rw [List.head?_cons, Option.some.injEq] at hc
    rw [← hc]
    exact hd32

theorem schemeRejected_of_head (p : List Char)
    (h : p = [] ∨ ∃ c cs, p = c :: cs ∧ isAsciiAlphaCh c = false) : schemeRejected p = true := by
  unfold schemeRejected
  cases hsp : splitFirst ':' p with
  | none => rfl
  | some pr =>
    obtain ⟨pre, suf⟩ := pr
    obtain ⟨hdec, hpre⟩ := splitFirst_decomp ':' p pre suf hsp
    dsimp only
    cases pre with
    | nil => rfl
    | cons c pcs =>
      dsimp only
      rcases h with h | ⟨c2, cs2, he, halpha⟩
      · rw [h] at hdec
        exact absurd hdec (by simp)
      · rw [he] at hdec
        have hdec2 : c2 :: cs2 = c :: (pcs ++ ':' :: suf) := hdec
        injection hdec2 with h1 h2
        rw [← h1, halpha]
        try rfl

theorem schemeRejected_of_prefix (p U t : List Char) (hU : U = p ++ t)
    (hs : splitScheme U = ([], U)) : schemeRejected p = true := by
  unfold schemeRejected
  cases hsp : splitFirst ':' p with
  | none => rfl
  | some pr =>
    obtain ⟨pre, suf⟩ := pr
    obtain ⟨hdec, hpre⟩ := splitFirst_decomp ':' p pre suf hsp
    have hU2 : U = pre ++ ':' :: (suf ++ t) := by
      rw [hU, hdec]
      simp only [List.append_assoc, List.cons_append]
    have hsplit : splitFirst ':' U = some (pre, suf ++ t) := by
      rw [hU2]
      exact splitFirst_append_sep ':' pre _ hpre
    unfold splitScheme at hs
    rw [hsplit] at hs
    dsimp only at hs ⊢
    cases pre with
    | nil => rfl
    | cons c pcs =>
      dsimp only at hs ⊢
      by_cases hv : (isAsciiAlphaCh c && (c :: pcs).all schemeChar) = true
      · rw [if_pos hv] at hs
        exfalso
        have h1 := congrArg Prod.fst hs
        dsimp only at h1
        have h2 : lowerPy c :: lowerStr pcs = [] := h1
        exact List.cons_ne_nil _ _ h2
      · rw [Bool.eq_false_iff.mpr hv]
        rfl

/-- One round of `normalize_url`'s split-and-transform establishes all the
`Canon` invariants on the components it will rebuild from. -/
theorem round1_canon (u : List Char) (s0 : USplit) (h : urlsplitM u = Except.ok s0) :
    Canon (lowerStr s0.scheme) (lowerStr s0.netloc) (canonPath s0.path)
      (urlencodeM (filterTracking (parseQsl s0.query))) := by
  unfold urlsplitM at h
  dsimp only at h
  cases hnet : splitNetlocE (splitScheme (cleanUrl u)).2 with
  | error e =>
    rw [hnet] at h
    exact absurd h (by simp)
  | ok nr =>
    rw [hnet] at h
    dsimp only at h
    injection h with h2
    subst h2
    dsimp only
    have hUctl := ctlFree_cleanUrl u
    have hUall : ∀ ch ∈ cleanUrl u, (!(ch = '\t' || ch = '\r' || ch = '\n')) = true := by
      have h3 := hUctl
      unfold ctlFree at h3
      exact List.all_eq_true.mp h3
    obtain ⟨hF35, tF, hFdec⟩ := splitHashPair_fst nr.2
    obtain ⟨hP63, tP, hPdec⟩ := splitQueryPair_fst (splitHashPair nr.2).1
    obtain ⟨tc, htc⟩ := canonPath_prefix (splitQueryPair (splitHashPair nr.2).1).1
    have hnet2 : splitNetlocE (splitScheme (cleanUrl u)).2 = Except.ok (nr.1, nr.2) := by
      rw [hnet]
    have hP0F : ∀ ch ∈ (splitQueryPair (splitHashPair nr.2).1).1,
        ch ∈ (splitHashPair nr.2).1 := by
      intro ch hm
      rw [hPdec]
      exact List.mem_append.mpr (Or.inl hm)
    have hFR : ∀ ch ∈ (splitHashPair nr.2).1, ch ∈ nr.2 := by
      intro ch hm
      rw [hFdec]
      exact List.mem_append.mpr (Or.inl hm)
    have hP35 : '#' ∉ (splitQueryPair (splitHashPair nr.2).1).1 := fun hm => hF35 (hP0F _ hm)
    -- facts applying in every branch
    have hq_mem : ∀ ch ∈ urlencodeM (filterTracking (parseQsl
        (splitQueryPair (splitHashPair nr.2).1).2)),
        (0x20 < ch.toNat ∧ ch.toNat < 0x80) ∧ ch.toNat ≠ 35 ∧ ch.toNat ≠ 58 :=
      fun ch hm => urlencodeM_mem_props _ ch hm
    have hq_fix := urlencode_filter_fix (splitQueryPair (splitHashPair nr.2).1).2
    have hpath_canon := canonPath_idem (splitQueryPair (splitHashPair nr.2).1).1
    rcases splitScheme_cases (cleanUrl u) with hsch | ⟨c, cs, post, hudec, hsch, hv⟩
    · -- no scheme was found
      have hs1 : (splitScheme (cleanUrl u)).1 = [] := by rw [hsch]
      have hs2 : (splitScheme (cleanUrl u)).2 = cleanUrl u := by rw [hsch]
      have hscheme_ok : lowerStr (splitScheme (cleanUrl u)).1 = [] := by
        rw [hs1]
        rfl
      rcases splitNetlocE_ok_cases _ nr.1 nr.2 hnet2 with ⟨htk, hn1, hr2⟩ |
        ⟨htk, hn1, hr2, hbra⟩
      · -- no netloc: the remainder is the whole cleaned input
        have hR2U : ∀ ch ∈ nr.2, ch ∈ cleanUrl u := by
          intro ch hm
          rw [hr2, hs2] at hm
          exact hm
        have hUp : cleanUrl u = canonPath (splitQueryPair (splitHashPair nr.2).1).1 ++
            (tc ++ (tP ++ tF)) := by
          conv_lhs => rw [← hs2, ← hr2, hFdec, hPdec, htc]
          simp only [List.append_assoc]
        have hPmem : ∀ ch ∈ canonPath (splitQueryPair (splitHashPair nr.2).1).1,
            ch ∈ cleanUrl u := fun ch hm => hR2U ch (hFR ch (hP0F ch (mem_canonPath _ ch hm)))
        refine ⟨Or.inl hscheme_ok, lowerStr_idem _, ?_, lowerStr_idem _, ?_, ?_, ?_, ?_,
          hpath_canon, ?_, ?_, hq_mem, hq_fix⟩
        · rw [hn1]
          rfl
        · rw [hn1]
          rfl
        · rw [hn1]
          rfl
        · rw [List.all_eq_true]
          intro ch hm
          have h1 : ch ≠ '?' := fun e => hP63 (e ▸ mem_canonPath _ ch hm)
          have h2 : ch ≠ '#' := fun e => hP35 (e ▸ mem_canonPath _ ch hm)
          simp only [Bool.not_eq_true', Bool.or_eq_false_iff, decide_eq_false_iff_not]
          exact ⟨h1, h2⟩
        · unfold ctlFree
          rw [List.all_eq_true]
          intro ch hm
          exact hUall ch (hPmem ch hm)
        · intro _ _
          exact schemeRejected_of_prefix _ (cleanUrl u) _ hUp hsch
        · intro _ _ d hd
          have hdu : (cleanUrl u).head? = some d := by
            rw [hUp, List.head?_append, hd]
            rfl
          exact cleanUrl_head u d hdu
      · -- netloc branch was taken, but since the final netloc is also split on
        -- the bracket-free head, chase the chain through `drop 2`
        have hN1U : ∀ ch ∈ nr.1, ch ∈ cleanUrl u := by
          intro ch hm
          rw [hn1] at hm
          have h3 := mem_of_mem_takeWhile _ _ _ hm
          have h4 := List.mem_of_mem_drop h3
          rw [hs2] at h4
          exact h4
        have hR2U : ∀ ch ∈ nr.2, ch ∈ cleanUrl u := by
          intro ch hm
          rw [hr2] at hm
          have h3 := mem_of_mem_dropWhile _ _ _ hm
          have h4 := List.mem_of_mem_drop h3
          rw [hs2] at h4
          exact h4
        have hPmem : ∀ ch ∈ canonPath (splitQueryPair (splitHashPair nr.2).1).1,
            ch ∈ cleanUrl u := fun ch hm => hR2U ch (hFR ch (hP0F ch (mem_canonPath _ ch hm)))
        have hmbl : ∀ c2, lowerPy c2 = '[' ↔ c2 = '[' :=
          fun c2 => lowerPy_eq_iff_of_inert c2 '[' (by decide) (by decide)
        have hmbr : ∀ c2, lowerPy c2 = ']' ↔ c2 = ']' :=
          fun c2 => lowerPy_eq_iff_of_inert c2 ']' (by decide) (by decide)
        refine ⟨Or.inl hscheme_ok, lowerStr_idem _, ?_, lowerStr_idem _, ?_, ?_, ?_, ?_,
          hpath_canon, ?_, ?_, hq_mem, hq_fix⟩
        · refine lowerStr_keep_all _ lowerPy_keep_notDelim _ ?_
          rw [hn1]
          exact takeWhile_all _ _
        · refine lowerStr_keep_all _ lowerPy_keep_ctl _ ?_
          rw [List.all_eq_true]
          intro ch hm
          exact hUall ch (hN1U ch hm)
        · rw [contains_lowerStr _ '[' hmbl, contains_lowerStr _ ']' hmbr]
          exact hbra
        · rw [List.all_eq_true]
          intro ch hm
          have h1 : ch ≠ '?' := fun e => hP63 (e ▸ mem_canonPath _ ch hm)
          have h2 : ch ≠ '#' := fun e => hP35 (e ▸ mem_canonPath _ ch hm)
          simp only [Bool.not_eq_true', Bool.or_eq_false_iff, decide_eq_false_iff_not]
          exact ⟨h1, h2⟩
        · unfold ctlFree
          rw [List.all_eq_true]
          intro ch hm
          exact hUall ch (hPmem ch hm)
        · -- with an empty netloc, the remainder begins with a netloc delimiter
          intro _ hnl
          have hn1nil : nr.1 = [] := (lowerStr_eq_nil nr.1).mp hnl
          rcases hshape : canonPath (splitQueryPair (splitHashPair nr.2).1).1 with _ | ⟨d, ds⟩
          · exact schemeRejected_of_head [] (Or.inl rfl)
          · have hdP0 : d ∈ (splitQueryPair (splitHashPair nr.2).1).1 :=
              mem_canonPath _ d (by rw [hshape]; exact List.mem_cons_self d ds)
            have hdR2 : nr.2.head? = some d := by
              rw [hFdec, hPdec, htc, hshape]
              rfl
            have hdelim : notNetlocDelim d = false := by
              rcases dropWhile_head_not notNetlocDelim ((splitScheme (cleanUrl u)).2.drop 2)
                with hdw | ⟨d2, ds2, hdw, hd2⟩
              · rw [hr2, hdw] at hdR2
                exact absurd hdR2 (by simp)
              · rw [hr2, hdw, List.head?_cons, Option.some.injEq] at hdR2
                rw [hdR2] at hd2
                exact hd2
            have hd47 : d.toNat = 47 := by
              have h3 : ¬(d.toNat ≠ 47 ∧ d.toNat ≠ 63 ∧ d.toNat ≠ 35) := by
                intro hcon
                rw [(notNetlocDelim_iff d).mpr hcon] at hdelim
                exact absurd hdelim (by decide)
              have h63 : d.toNat ≠ 63 := by
                intro he
                apply hP63
                have : d = '?' := by
                  rw [charEq_iff_toNat, he]
                  rfl
                rw [← this]
                exact hdP0
              have h35 : d.toNat ≠ 35 := by
                intro he
                apply hP35
                have : d = '#' := by
                  rw [charEq_iff_toNat, he]
                  rfl
                rw [← this]
                exact hdP0
              by_contra h47
              exact h3 ⟨h47, h63, h35⟩
            refine schemeRejected_of_head _ (Or.inr ⟨d, ds, rfl, ?_⟩)
            exact Bool.eq_false_iff.mpr (fun htrue => by
              have := (isAsciiAlphaCh_iff d).mp htrue
              omega)
        · intro _ hnl d hd
          rcases hshape : canonPath (splitQueryPair (splitHashPair nr.2).1).1 with _ | ⟨d2, ds⟩
          · rw [hshape] at hd
            exact absurd hd (by simp)
          · rw [hshape, List.head?_cons, Option.some.injEq] at hd
            have hn1nil : nr.1 = [] := (lowerStr_eq_nil nr.1).mp hnl
            have hdR2 : nr.2.head? = some d2 := by
              rw [hFdec, hPdec, htc, hshape]
              rfl
            have hdelim : notNetlocDelim d2 = false := by
              rcases dropWhile_head_not notNetlocDelim ((splitScheme (cleanUrl u)).2.drop 2)
                with hdw | ⟨d3, ds3, hdw, hd3⟩
              · rw [hr2, hdw] at hdR2
                exact absurd hdR2 (by simp)
              · rw [hr2, hdw, List.head?_cons, Option.some.injEq] at hdR2
                rw [hdR2] at hd3
                exact hd3
            have h3 : ¬(d2.toNat ≠ 47 ∧ d2.toNat ≠ 63 ∧ d2.toNat ≠ 35) := by
              intro hcon
              rw [(notNetlocDelim_iff d2).mpr hcon] at hdelim
              exact absurd hdelim (by decide)
            rw [← hd]
            omega
    · -- a scheme was found
      have hs1 : (splitScheme (cleanUrl u)).1 = lowerStr (c :: cs) := by rw [hsch]
      have hs2 : (splitScheme (cleanUrl u)).2 = post := by rw [hsch]
      have hs1low : lowerStr (splitScheme (cleanUrl u)).1 = lowerStr (c :: cs) := by
        rw [hs1, lowerStr_idem]
      have hscheme_ok : lowerStr (splitScheme (cleanUrl u)).1 = [] ∨
          ∃ c2 cs2, lowerStr (splitScheme (cleanUrl u)).1 = c2 :: cs2 ∧
            (isAsciiAlphaCh c2 && (c2 :: cs2).all schemeChar) = true := by
        refine Or.inr ⟨lowerPy c, lowerStr cs, ?_, ?_⟩
        · rw [hs1low]
          rfl
        · rw [Bool.and_eq_true]
          have hv2 := hv
          rw [Bool.and_eq_true] at hv2
          refine ⟨lowerPy_keep_alpha c hv2.1, ?_⟩
          exact lowerStr_keep_all schemeChar lowerPy_keep_schemeChar (c :: cs) hv2.2
      have hSP2U : ∀ ch ∈ (splitScheme (cleanUrl u)).2, ch ∈ cleanUrl u := by
        intro ch hm
        rw [hs2] at hm
        rw [hudec]
        refine List.mem_append.mpr (Or.inr ?_)
        exact List.mem_cons_of_mem ':' hm
      have hscheme_nonnil : lowerStr (splitScheme (cleanUrl u)).1 ≠ [] := by
        rw [hs1low]
        exact List.cons_ne_nil _ _
      rcases splitNetlocE_ok_cases _ nr.1 nr.2 hnet2 with ⟨htk, hn1, hr2⟩ |
        ⟨htk, hn1, hr2, hbra⟩
      · have hR2U : ∀ ch ∈ nr.2, ch ∈ cleanUrl u := by
          intro ch hm
          rw [hr2] at hm
          exact hSP2U ch hm
        have hPmem : ∀ ch ∈ canonPath (splitQueryPair (splitHashPair nr.2).1).1,
            ch ∈ cleanUrl u := fun ch hm => hR2U ch (hFR ch (hP0F ch (mem_canonPath _ ch hm)))
        refine ⟨hscheme_ok, lowerStr_idem _, ?_, lowerStr_idem _, ?_, ?_, ?_, ?_,
          hpath_canon, ?_, ?_, hq_mem, hq_fix⟩
        · rw [hn1]
          rfl
        · rw [hn1]
          rfl
        · rw [hn1]
          rfl
        · rw [List.all_eq_true]
          intro ch hm
          have h1 : ch ≠ '?' := fun e => hP63 (e ▸ mem_canonPath _ ch hm)
          have h2 : ch ≠ '#' := fun e => hP35 (e ▸ mem_canonPath _ ch hm)
          simp only [Bool.not_eq_true', Bool.or_eq_false_iff, decide_eq_false_iff_not]
          exact ⟨h1, h2⟩
        · unfold ctlFree
          rw [List.all_eq_true]
          intro ch hm
          exact hUall ch (hPmem ch hm)
        · intro hsl _
          exact absurd hsl hscheme_nonnil
        · intro hsl _
          exact absurd hsl hscheme_nonnil
      · have hN1U : ∀ ch ∈ nr.1, ch ∈ cleanUrl u := by
          intro ch hm
          rw [hn1] at hm
          exact hSP2U ch (List.mem_of_mem_drop (mem_of_mem_takeWhile _ _ _ hm))
        have hR2U : ∀ ch ∈ nr.2, ch ∈ cleanUrl u := by
          intro ch hm
          rw [hr2] at hm
          exact hSP2U ch (List.mem_of_mem_drop (mem_of_mem_dropWhile _ _ _ hm))
        have hPmem : ∀ ch ∈ canonPath (splitQueryPair (splitHashPair nr.2).1).1,
            ch ∈ cleanUrl u := fun ch hm => hR2U ch (hFR ch (hP0F ch (mem_canonPath _ ch hm)))
        have hmbl : ∀ c2, lowerPy c2 = '[' ↔ c2 = '[' :=
          fun c2 => lowerPy_eq_iff_of_inert c2 '[' (by decide) (by decide)
        have hmbr : ∀ c2, lowerPy c2 = ']' ↔ c2 = ']' :=
          fun c2 => lowerPy_eq_iff_of_inert c2 ']' (by decide) (by decide)
        refine ⟨hscheme_ok, lowerStr_idem _, ?_, lowerStr_idem _, ?_, ?_, ?_, ?_,
          hpath_canon, ?_, ?_, hq_mem, hq_fix⟩
        · refine lowerStr_keep_all _ lowerPy_keep_notDelim _ ?_
          rw [hn1]
          exact takeWhile_all _ _
        · refine lowerStr_keep_all _ lowerPy_keep_ctl _ ?_
          rw [List.all_eq_true]
          intro ch hm
          exact hUall ch (hN1U ch hm)
        · rw [contains_lowerStr _ '[' hmbl, contains_lowerStr _ ']' hmbr]
          exact hbra
        · rw [List.all_eq_true]
          intro ch hm
          have h1 : ch ≠ '?' := fun e => hP63 (e ▸ mem_canonPath _ ch hm)
          have h2 : ch ≠ '#' := fun e => hP35 (e ▸ mem_canonPath _ ch hm)
          simp only [Bool.not_eq_true', Bool.or_eq_false_iff, decide_eq_false_iff_not]
          exact ⟨h1, h2⟩
        · unfold ctlFree
          rw [List.all_eq_true]
          intro ch hm
          exact hUall ch (hPmem ch hm)
        · intro hsl _
          exact absurd hsl hscheme_nonnil
        · intro hsl _
          exact absurd hsl hscheme_nonnil

/-- Idempotence of the list-level normaliser under the netloc/`//` side
condition. -/
theorem normalizeList_idem (u : List Char)
    (h : match urlsplitM u with
         | Except.error _ => True
         | Except.ok s => s.netloc ≠ [] ∨ (canonPath s.path).take 2 ≠ ['/', '/']) :
    normalizeList (normalizeList u) = normalizeList u := by
  cases hsplit : urlsplitM u with
  | error e =>
    have h1 : normalizeList u = u := by
      unfold normalizeList
      rw [hsplit]
    rw [h1, h1]
  | ok s0 =>
    rw [hsplit] at h
    dsimp only at h
    have hC := round1_canon u s0 hsplit
    have hnp : lowerStr s0.netloc ≠ [] ∨ (canonPath s0.path).take 2 ≠ ['/', '/'] := by
      rcases h with h | h
      · left
        intro hcon
        exact h ((lowerStr_eq_nil _).mp hcon)
      · exact Or.inr h
    obtain ⟨n2, p2, hsplit2, hn2low, hp2can, hrebuild⟩ :=
      resplit (lowerStr s0.scheme) (lowerStr s0.netloc) (canonPath s0.path)
        (urlencodeM (filterTracking (parseQsl s0.query))) hC hnp
    by_cases hr : urlunsplitM (lowerStr s0.scheme) (lowerStr s0.netloc) (canonPath s0.path)
        (urlencodeM (filterTracking (parseQsl s0.query))) [] = []
    · have h1 : normalizeList u = u := by
        unfold normalizeList
        rw [hsplit]
        dsimp only
        rw [if_pos hr]
      rw [h1, h1]
    · have h1 : normalizeList u = urlunsplitM (lowerStr s0.scheme) (lowerStr s0.netloc)
          (canonPath s0.path) (urlencodeM (filterTracking (parseQsl s0.query))) [] := by
        unfold normalizeList
        rw [hsplit]
        dsimp only
        rw [if_neg hr]
      rw [h1]
      unfold normalizeList
      rw [hsplit2]
      dsimp only
      rw [lowerStr_idem, hn2low, hp2can, hC.q_fix, hrebuild]
      rw [if_neg hr]

/-- C7 (counterexample): normalize_url is NOT idempotent.  For
`"http:////A"` the first split finds an empty netloc (the char after `//` is
another `/`) and a path `"//A"`; since the path already starts with `//` the
`uses_netloc` re-add is skipped and the result is `"http://A"`.  Splitting
that again finds netloc `"A"`, which the second round lowercases to
`"http://a"`. -/
theorem normalize_not_idempotent :
    normalize_url "http:////A" = "http://A" ∧
      normalize_url (normalize_url "http:////A") = "http://a" ∧
      normalize_url (normalize_url "http:////A") ≠ normalize_url "http:////A" := by
  refine ⟨?_, ?_, ?_⟩ <;> decide

/-- C7 (amended): normalize_url is idempotent on every URL whose parse does
not leave an empty netloc together with a canonical path starting with `//`
(the only situation in which rebuilding and re-splitting can move characters
between the netloc and path components).  In particular it is idempotent on
every URL whose parse fails, has a nonempty netloc, or has a path not
beginning with two slashes after the trailing-slash strip. -/
theorem normalize_idempotent (u : String)
    (h : match urlsplitM u.data with
         | Except.error _ => True
         | Except.ok s => s.netloc ≠ [] ∨ (canonPath s.path).take 2 ≠ ['/', '/']) :
    normalize_url (normalize_url u) = normalize_url u := by
  unfold normalize_url
  have h2 := normalizeList_idem u.data h
  rw [show (String.mk (normalizeList u.data)).data = normalizeList u.data from rfl]
  rw [h2]

theorem normalize_idempotent_witness :
    normalize_url (normalize_url "http://EX.com/a/") = normalize_url "http://EX.com/a/" :=
  normalize_idempotent "http://EX.com/a/" (by
    rw [show urlsplitM ("http://EX.com/a/").data
        = Except.ok ⟨"http".data, "EX.com".data, "/a/".data, [], []⟩ from rfl]
    exact Or.inl (by decide))

end BookmarkTools
